import Mathlib

set_option linter.unusedVariables false

/-!
Shallow embedding of the GTD-GPT Discord bot core (src/main.py).

Python strings are modelled as lists of characters (`Str`), machine timestamps
as integers (seconds for `time.time`, milliseconds for `time.monotonic`, so the
0.6-second rate-limit threshold becomes 600).  Fallible external calls
(message sends/edits, presence changes, the user fetch, the HTTP stream) are
driven by an explicit environment describing their outcomes; everything that
`main.py` itself computes is translated directly.
-/

abbrev Str := List Char

def natToStr (n : Nat) : Str := (Nat.repr n).data

/-- Brace characters, used by the JSON wire format. -/
def lbrace : Char := '\x7b'

def rbrace : Char := '\x7d'

/-- Python `text.split("\n")`: all occurrences, keeping empty fields
(`len(result)` = number of separators + 1). -/
def splitAllNl : Str → List Str
  | [] => [[]]
  | c :: cs =>
    if c = '\n' then [] :: splitAllNl cs
    else
      match splitAllNl cs with
      | s :: ss => (c :: s) :: ss
      | [] => [[c]]

/-- Python `"\n".join(parts)`. -/
def intercalateNl : List Str → Str
  | [] => []
  | [s] => s
  | s :: ss => s ++ '\n' :: intercalateNl ss

def DISCORD_MESSAGE_LIMIT : Nat := 2000

/-- One step of the paragraph-accumulation loop of `split_message`
(state = (chunks, current)). -/
def smStep (limit : Nat) (st : List Str × Str) (par : Str) : List Str × Str :=
  if st.2.length + par.length + 1 > limit then (st.1 ++ [st.2], par)
  else if st.2 = [] then (st.1, par)
  else (st.1, st.2 ++ '\n' :: par)

/-- `split_message` (src/main.py lines 93-112), with the message limit as an
explicit parameter: the source fixes it to `DISCORD_MESSAGE_LIMIT`, the spec's
`chunk(text, limit)` names it. -/
def splitMessageGen (limit : Nat) (text : Str) : List Str :=
  if text.length ≤ limit then [text]
  else
    let r := (splitAllNl text).foldl (smStep limit) ([], [])
    if r.2 = [] then r.1 else r.1 ++ [r.2]

def split_message (text : Str) : List Str := splitMessageGen DISCORD_MESSAGE_LIMIT text

/-! ### JSON values and a parser for the subset the Ollama wire format uses

`json.loads` is modelled by a recursive-descent parser over objects, arrays,
strings (with the basic escapes), integers, `true`/`false`/`null`.  Inputs
outside this subset (floats, unicode escapes) do not occur in the backend
protocol. -/

inductive JVal where
  | jnull
  | jbool (b : Bool)
  | jnum (n : Int)
  | jstr (s : Str)
  | jarr (xs : List JVal)
  | jobj (fs : List (Str × JVal))

def isWsChar (c : Char) : Bool :=
  (c = ' ') || (c = '\t') || (c = '\n') || (c = '\r')

def skipWs : Str → Str
  | [] => []
  | c :: cs => if isWsChar c then skipWs cs else c :: cs

/-- Python `line.strip()`. -/
def stripStr (s : Str) : Str := (skipWs (skipWs s).reverse).reverse

def parseStringBody (fuel : Nat) (s : Str) : Option (Str × Str) :=
  match fuel, s with
  | 0, _ => none
  | _, [] => none
  | f + 1, c :: cs =>
    if c = '"' then some ([], cs)
    else if c = '\\' then
      match cs with
      | [] => none
      | e :: cs2 =>
        let ec := if e = 'n' then '\n' else if e = 't' then '\t'
                  else if e = 'r' then '\r' else e
        match parseStringBody f cs2 with
        | some (r, rest) => some (ec :: r, rest)
        | none => none
    else
      match parseStringBody f cs with
      | some (r, rest) => some (c :: r, rest)
      | none => none

def digitsVal : Str → Nat → Nat
  | [], acc => acc
  | c :: cs, acc => digitsVal cs (acc * 10 + (c.toNat - 48))

def parseNum (s : Str) : Option (Int × Str) :=
  let p := match s with
           | '-' :: r => (true, r)
           | _ => (false, s)
  let ds := p.2.takeWhile (fun c => c.isDigit)
  let rest := p.2.dropWhile (fun c => c.isDigit)
  if ds = [] then none
  else some ((if p.1 then -(digitsVal ds 0 : Int) else (digitsVal ds 0 : Int)), rest)

/-- Parser mode: a whole value, the members of an object, or the elements of
an array (the latter two carrying what has been read so far). -/
inductive PMode where
  | val
  | fields (first : Bool) (acc : List (Str × JVal))
  | elems (first : Bool) (acc : List JVal)

/-- Recursive-descent JSON parser, structurally recursive on fuel so that the
kernel can evaluate it. -/
def parseJ : Nat → PMode → Str → Option (JVal × Str)
  | 0, _, _ => none
  | f + 1, PMode.val, s =>
    match skipWs s with
    | [] => none
    | c :: cs =>
      if c = '"' then
        match parseStringBody f cs with
        | some (str, rest) => some (JVal.jstr str, rest)
        | none => none
      else if c = lbrace then parseJ f (PMode.fields true []) cs
      else if c = '[' then parseJ f (PMode.elems true []) cs
      else if c = 't' then
        match cs with
        | 'r' :: 'u' :: 'e' :: rest => some (JVal.jbool true, rest)
        | _ => none
      else if c = 'f' then
        match cs with
        | 'a' :: 'l' :: 's' :: 'e' :: rest => some (JVal.jbool false, rest)
        | _ => none
      else if c = 'n' then
        match cs with
        | 'u' :: 'l' :: 'l' :: rest => some (JVal.jnull, rest)
        | _ => none
      else
        match parseNum (c :: cs) with
        | some (n, rest) => some (JVal.jnum n, rest)
        | none => none
  | f + 1, PMode.fields first acc, s =>
    match skipWs s with
    | [] => none
    | c :: cs =>
      if first && (c = rbrace) then some (JVal.jobj acc.reverse, cs)
      else if c = '"' then
        match parseStringBody f cs with
        | none => none
        | some (k, r1) =>
          match skipWs r1 with
          | ':' :: r2 =>
            match parseJ f PMode.val r2 with
            | none => none
            | some (v, r3) =>
              match skipWs r3 with
              | ',' :: r4 => parseJ f (PMode.fields false ((k, v) :: acc)) r4
              | c2 :: r4 =>
                if c2 = rbrace then some (JVal.jobj ((k, v) :: acc).reverse, r4)
                else none
              | [] => none
          | _ => none
      else none
  | f + 1, PMode.elems first acc, s =>
    match skipWs s with
    | [] => none
    | c :: cs =>
      if first && (c = ']') then some (JVal.jarr acc.reverse, cs)
      else
        match parseJ f PMode.val (c :: cs) with
        | none => none
        | some (v, r1) =>
          match skipWs r1 with
          | ',' :: r2 => parseJ f (PMode.elems false (v :: acc)) r2
          | ']' :: r2 => some (JVal.jarr (v :: acc).reverse, r2)
          | _ => none

/-- Python `json.loads` on a stripped line (must consume the whole input). -/
def json_loads (s : Str) : Option JVal :=
  match parseJ (2 * s.length + 2) PMode.val s with
  | some (v, rest) => if skipWs rest = [] then some v else none
  | none => none

/-- Python truthiness of a decoded JSON value (`if data.get("done"):`). -/
def truthy : JVal → Bool
  | JVal.jnull => false
  | JVal.jbool b => b
  | JVal.jnum n => decide (n ≠ 0)
  | JVal.jstr s => decide (s ≠ [])
  | JVal.jarr xs => !xs.isEmpty
  | JVal.jobj fs => !fs.isEmpty

/-- Dict lookup (`data.get` / `data[k]`); with duplicate keys `json.loads`
keeps the last one. -/
def jLookup (fs : List (Str × JVal)) (k : Str) : Option JVal :=
  (fs.reverse.find? (fun p => decide (p.1 = k))).map (fun p => p.2)

def doneKey : Str := "done".data
def messageKey : Str := "message".data
def contentKey : Str := "content".data

/-- Text of the `RuntimeError` raised on a non-200 response
(`f"Ollama HTTP \x7bresp.status\x7d"`). -/
def httpErrMsg (status : Nat) : Str := "Ollama HTTP ".data ++ natToStr status

/-- Stands for the `str` of the `json.JSONDecodeError` raised by `json.loads`
on an unparseable line. -/
def decodeErrMsg (l : Str) : Str := "Expecting value: ".data ++ l

/-- Stands for the `AttributeError` raised by `data.get` when a line decodes
to a non-object. -/
def attrErrMsg : Str := "AttributeError: get".data

/-- Outcome of draining the complete lines currently in the buffer. -/
inductive LineOut where
  | more (acc : List Str)
  | fin (acc : List Str)
  | errL (e : Str) (acc : List Str)
deriving DecidableEq

/-- The body of `stream_ollama`'s `while "\n" in buffer` loop, applied to the
complete lines split out of the buffer, in order.  `fin` models the
`return` taken on the first event whose `done` flag is truthy (the generator
ends, every remaining line and buffered byte is abandoned); `errL` models an
exception escaping the generator.  (A `message` field that is not an object,
or a `content` that is not a string, cannot occur in the backend protocol and
is skipped here.) -/
def processLines (acc : List Str) : List Str → LineOut
  | [] => LineOut.more acc
  | line :: rest =>
    let l := stripStr line
    if l = [] then processLines acc rest
    else
      match json_loads l with
      | none => LineOut.errL (decodeErrMsg l) acc
      | some (JVal.jobj fs) =>
        if truthy ((jLookup fs doneKey).getD JVal.jnull) then LineOut.fin acc
        else
          match jLookup fs messageKey with
          | some (JVal.jobj ms) =>
            match jLookup ms contentKey with
            | some (JVal.jstr s) => processLines (acc ++ [s]) rest
            | _ => processLines acc rest
          | _ => processLines acc rest
      | some _ => LineOut.errL attrErrMsg acc

/-- The chunk-consuming loop of `stream_ollama`: each raw chunk is appended to
the buffer, the buffer is repeatedly split at newlines, and every complete
line is processed; the trailing newline-free remainder stays buffered. -/
def feed (buffer : Str) (acc : List Str) : List Str → List Str × Option Str
  | [] => (acc, none)
  | c :: cs =>
    let buf := buffer ++ c
    let segs := splitAllNl buf
    match processLines acc segs.dropLast with
    | LineOut.more acc2 => feed (segs.getLastD []) acc2 cs
    | LineOut.fin acc2 => (acc2, none)
    | LineOut.errL e acc2 => (acc2, some e)

/-- `stream_ollama` (src/main.py lines 114-147), as a function of the HTTP
status and the arriving byte chunks: the list of yielded text increments plus
the exception, if any, that ends the stream. -/
def runStream (status : Nat) (chunks : List Str) : List Str × Option Str :=
  if status = 200 then feed [] [] chunks
  else ([], some (httpErrMsg status))

/-! ### Memory store and global state -/

def MAX_MEMORY_TURNS : Nat := 8

def MEMORY_EXPIRY_SECONDS : Int := 86400

structure Turn where
  role : Str
  content : Str
deriving DecidableEq

def userRole : Str := "user".data

def assistantRole : Str := "assistant".data

/-- `collections.deque(maxlen=n).append`: when full, the oldest (leftmost)
entry is discarded. -/
def dequeAppend (maxlen : Nat) (l : List Turn) (t : Turn) : List Turn :=
  if l.length < maxlen then l ++ [t] else l.drop (l.length + 1 - maxlen) ++ [t]

/-- The two `memory.append` calls of src/main.py lines 219-220. -/
def appendPair (l : List Turn) (u a : Str) : List Turn :=
  dequeAppend (2 * MAX_MEMORY_TURNS)
    (dequeAppend (2 * MAX_MEMORY_TURNS) l (Turn.mk userRole u))
    (Turn.mk assistantRole a)

/-! Python dicts as insertion-ordered association lists. -/

def lookupL {α β : Type} [DecidableEq α] (m : List (α × β)) (k : α) : Option β :=
  (m.find? (fun p => decide (p.1 = k))).map (fun p => p.2)

def setk {α β : Type} [DecidableEq α] (m : List (α × β)) (k : α) (v : β) :
    List (α × β) :=
  if m.any (fun p => decide (p.1 = k)) then
    m.map (fun p => if p.1 = k then (k, v) else p)
  else m ++ [(k, v)]

abbrev MKey := Nat × Str

/-- `conversation_memory`, `last_activity` and `ongoing_generation`
(the per-persona locks live only in the concurrency model below). -/
structure GState where
  mem : List (MKey × List Turn)
  act : List (MKey × Int)
  flags : List (Str × Bool)
deriving DecidableEq

def getTurns (st : GState) (k : MKey) : List Turn := (lookupL st.mem k).getD []

/-- `ongoing_generation[c]` (a `defaultdict(bool)`: absent means `False`). -/
def flagOf (st : GState) (c : Str) : Bool := (lookupL st.flags c).getD false

def keyExpired (now : Int) (act : List (MKey × Int)) (k : MKey) : Bool :=
  match lookupL act k with
  | some ts => decide (now - ts > MEMORY_EXPIRY_SECONDS)
  | none => false

/-- `cleanup_expired_memory` (src/main.py lines 82-90): collects the expired
keys from `last_activity` and pops each from both maps. -/
def cleanupState (now : Int) (st : GState) : GState :=
  { st with
    mem := st.mem.filter (fun p => !(keyExpired now st.act p.1)),
    act := st.act.filter (fun p => !(decide (now - p.2 > MEMORY_EXPIRY_SECONDS))) }

/-- The `defaultdict` access `conversation_memory[key]` (src/main.py line
183): inserts an empty history when the key is absent. -/
def ensureKey (st : GState) (k : MKey) : GState :=
  match lookupL st.mem k with
  | some _ => st
  | none => { st with mem := st.mem ++ [(k, [])] }

/-- Committing a (user, assistant) turn pair into the deque. -/
def commitPair (st : GState) (k : MKey) (u a : Str) : GState :=
  { st with mem := setk st.mem k (appendPair (getTurns st k) u a) }

/-- The keys removed by the `clearmemory` command for one user. -/
def clearKeys (st : GState) (uid : Nat) : List MKey :=
  (st.mem.filter (fun p => decide (p.1.1 = uid))).map (fun p => p.1)

/-- `clear_memory_prefix` / `clear_memory_slash` (src/main.py lines 258-292):
pops every memory key of the user from both maps and reports the count. -/
def clearMemory (st : GState) (uid : Nat) : GState × Nat :=
  let ks := clearKeys st uid
  ({ st with
     mem := st.mem.filter (fun p => decide (p.1 ∉ ks)),
     act := st.act.filter (fun p => decide (p.1 ∉ ks)) }, ks.length)

/-! ### The coordinator `handle_character` (src/main.py lines 151-231)

Every awaited Discord/HTTP call may raise a transport error; the environment
fixes the outcome of the n-th transport call (`opOk`/`opErr`, in call order)
and of the user fetch, and supplies the wall clock, the monotonic clock (in
milliseconds, read number by read number), and the backend's HTTP status and
byte chunks.  The observable calls are recorded in a trace. -/

inductive Ev where
  | sent (msgId : Nat) (content : Str)
  | edited (msgId : Nat) (content : Str)
  | presence (online : Bool)
deriving DecidableEq

structure Eff where
  opIdx : Nat
  msgCount : Nat
  trace : List Ev
deriving DecidableEq

structure Env where
  now : Int
  basePrompt : Str
  charPrompt : Option Str
  displayName : Str
  userTag : Str
  userOk : Bool
  fetchErr : Str
  opOk : Nat → Bool
  opErr : Nat → Str
  status : Nat
  chunks : List Str
  mono : Nat → Nat

inductive HRes where
  | ret
  | raised (e : Str)
deriving DecidableEq

def doSend (env : Env) (eff : Eff) (content : Str) : Eff × Except Str Nat :=
  if env.opOk eff.opIdx then
    ({ opIdx := eff.opIdx + 1, msgCount := eff.msgCount + 1,
       trace := eff.trace ++ [Ev.sent eff.msgCount content] }, Except.ok eff.msgCount)
  else ({ eff with opIdx := eff.opIdx + 1 }, Except.error (env.opErr eff.opIdx))

def doEdit (env : Env) (eff : Eff) (m : Nat) (content : Str) : Eff × Except Str Unit :=
  if env.opOk eff.opIdx then
    ({ eff with opIdx := eff.opIdx + 1,
                trace := eff.trace ++ [Ev.edited m content] }, Except.ok ())
  else ({ eff with opIdx := eff.opIdx + 1 }, Except.error (env.opErr eff.opIdx))

def doPresence (env : Env) (eff : Eff) (online : Bool) : Eff × Except Str Unit :=
  if env.opOk eff.opIdx then
    ({ eff with opIdx := eff.opIdx + 1,
                trace := eff.trace ++ [Ev.presence online] }, Except.ok ())
  else ({ eff with opIdx := eff.opIdx + 1 }, Except.error (env.opErr eff.opIdx))

def STARTING_MESSAGE : Str := "Hmmm... let me think about that...".data

def THINKING_MESSAGE : Str :=
  "I\x27m currently already thinking right now, give me a second and I\x27ll get back to you.".data

def notFoundMsg (c : Str) : Str :=
  "Character \x27".data ++ c ++ "\x27 not found.".data

def errHead : Str := "Something went wrong while communicating to ollama: ".data

def errMsg (e : Str) : Str := errHead ++ e

def noOutputMsg : Str := "The model returned no output.".data

def systemPromptOf (basePrompt charPrompt : Str) : Str :=
  "---SYSTEM PROMPT---\n\n".data ++ basePrompt ++
  "\n\n---CHARACTER INFORMATION---\n\n".data ++ charPrompt

def userLineOf (env : Env) (uid : Nat) (message : Str) : Str :=
  env.displayName ++ " (@".data ++ env.userTag ++ ") has asked: ".data ++ message ++
  ".\n\n(to ping the user, use <@".data ++ natToStr uid ++ ">)".data

structure ChatMsg where
  role : Str
  content : Str
deriving DecidableEq

def assembleMessages (env : Env) (sys : Str) (memory : List Turn) (uid : Nat)
    (message : Str) : List ChatMsg :=
  ChatMsg.mk "system".data sys ::
    (memory.map (fun t => ChatMsg.mk t.role t.content) ++
     [ChatMsg.mk userRole (userLineOf env uid message)])

/-- Python `full_reply[-limit:]`. -/
def takeLastN (n : Nat) (s : Str) : Str := s.drop (s.length - n)

structure LoopSt where
  eff : Eff
  reply : Str
  lastEdit : Nat
  clk : Nat

/-- The `async for token in stream_ollama(...)` loop body (src/main.py lines
192-200): accumulate the token and revise the placeholder when more than 0.6 s
(600 ms) have passed since the last revision.  A failing revision is an
exception inside the `try`, reported as the caught error. -/
def streamLoop (env : Env) (tmsg : Nat) : List Str → LoopSt → LoopSt × Option Str
  | [], ls => (ls, none)
  | tok :: rest, ls =>
    let reply := ls.reply ++ tok
    let t := env.mono ls.clk
    if t - ls.lastEdit > 600 then
      match doEdit env ls.eff tmsg (takeLastN DISCORD_MESSAGE_LIMIT reply) with
      | (eff2, Except.ok _) =>
        streamLoop env tmsg rest
          { eff := eff2, reply := reply, lastEdit := env.mono (ls.clk + 1), clk := ls.clk + 2 }
      | (eff2, Except.error e) =>
        ({ ls with eff := eff2, reply := reply, clk := ls.clk + 1 }, some e)
    else
      streamLoop env tmsg rest { ls with reply := reply, clk := ls.clk + 1 }

/-- Clearing the generation flag and updating presence (src/main.py lines
204-206 / 214-216 / 228-230). -/
def finishClear (env : Env) (eff : Eff) (st : GState) (character : Str) :
    GState × List Ev × HRes :=
  let st2 := { st with flags := setk st.flags character false }
  if st2.flags.any (fun p => p.2) then (st2, eff.trace, HRes.ret)
  else
    match doPresence env eff false with
    | (eff2, Except.ok _) => (st2, eff2.trace, HRes.ret)
    | (eff2, Except.error e) => (st2, eff2.trace, HRes.raised e)

/-- Revising the placeholder and then clearing the flag, as done on the
decode-failure and empty-result paths.  The revision comes first: if it
itself raises, the flag is never cleared. -/
def editThenClear (env : Env) (eff : Eff) (st : GState) (character : Str)
    (tmsg : Nat) (content : Str) : GState × List Ev × HRes :=
  match doEdit env eff tmsg content with
  | (eff2, Except.ok _) => finishClear env eff2 st character
  | (eff2, Except.error e2) => (st, eff2.trace, HRes.raised e2)

/-- The `for part in parts[1:]` send loop (src/main.py lines 225-226). -/
def sendParts (env : Env) : List Str → Eff → Eff × Option Str
  | [], eff => (eff, none)
  | p :: ps, eff =>
    match doSend env eff p with
    | (eff2, Except.ok _) => sendParts env ps eff2
    | (eff2, Except.error e) => (eff2, some e)

/-- `handle_character` (src/main.py lines 151-231).  Returns the final global
state, the trace of observable transport calls, and whether the invocation
returned normally or let an exception propagate to its caller. -/
def handle (env : Env) (st0 : GState) (user_id : Nat) (character message : Str) :
    GState × List Ev × HRes :=
  let st1 := cleanupState env.now st0
  let st := { st1 with act := setk st1.act (user_id, character) env.now }
  let eff0 : Eff := { opIdx := 0, msgCount := 0, trace := [] }
  match env.charPrompt with
  | none =>
    match doSend env eff0 (notFoundMsg character) with
    | (eff, Except.ok _) => (st, eff.trace, HRes.ret)
    | (eff, Except.error e) => (st, eff.trace, HRes.raised e)
  | some charPrompt =>
    if flagOf st character then
      match doSend env eff0 THINKING_MESSAGE with
      | (eff, Except.ok _) => (st, eff.trace, HRes.ret)
      | (eff, Except.error e) => (st, eff.trace, HRes.raised e)
    else
      let st := { st with flags := setk st.flags character true }
      match doPresence env eff0 true with
      | (eff, Except.error e) => (st, eff.trace, HRes.raised e)
      | (eff, Except.ok _) =>
        match doSend env eff STARTING_MESSAGE with
        | (eff, Except.error e) => (st, eff.trace, HRes.raised e)
        | (eff, Except.ok tmsg) =>
          if env.userOk = false then (st, eff.trace, HRes.raised env.fetchErr)
          else
            let st := ensureKey st (user_id, character)
            let memory := getTurns st (user_id, character)
            let _msgs := assembleMessages env
              (systemPromptOf env.basePrompt charPrompt) memory user_id message
            let sr := runStream env.status env.chunks
            let ls0 : LoopSt := { eff := eff, reply := [], lastEdit := env.mono 0, clk := 1 }
            match streamLoop env tmsg sr.1 ls0 with
            | (ls, some e) => editThenClear env ls.eff st character tmsg (errMsg e)
            | (ls, none) =>
              match sr.2 with
              | some e => editThenClear env ls.eff st character tmsg (errMsg e)
              | none =>
                if ls.reply.filter (fun c => !(isWsChar c)) = [] then
                  editThenClear env ls.eff st character tmsg noOutputMsg
                else
                  let st := commitPair st (user_id, character) message ls.reply
                  let parts := split_message ls.reply
                  match doEdit env ls.eff tmsg (parts.headD []) with
                  | (eff2, Except.error e) => (st, eff2.trace, HRes.raised e)
                  | (eff2, Except.ok _) =>
                    match sendParts env parts.tail eff2 with
                    | (eff3, some e) => (st, eff3.trace, HRes.raised e)
                    | (eff3, none) => finishClear env eff3 st character

/-! ### Concurrency model for the per-persona lock

Two concurrent invocations of `handle` for the same persona, broken at their
await points into atomic small steps.  `asyncio.Lock` is the `lock` field
(`user_locks[character]`, held for the entire generation); a task whose next
step needs the lock simply cannot proceed while another task holds it.  An
arbitrary interleaving is a schedule: the list of task indices picked to take
their next step.  Invocations for different personas share no state, so two
tasks on one persona suffice. -/

inductive TPhase where
  | entry
  | checking
  | busying
  | doneBusy
  | generating (rest : List Str)
  | doneOk
deriving DecidableEq

def isGen : TPhase → Bool
  | TPhase.generating _ => true
  | _ => false

structure CState where
  lock : Option (Fin 2)
  flag : Bool
  commits : Nat
  busySends : Nat
  toks0 : List Str
  toks1 : List Str
  p0 : TPhase
  p1 : TPhase
  acc0 : Str
  acc1 : Str
deriving DecidableEq

def phaseOf (s : CState) (i : Fin 2) : TPhase := if i = 0 then s.p0 else s.p1

def setPhase (s : CState) (i : Fin 2) (p : TPhase) : CState :=
  if i = 0 then { s with p0 := p } else { s with p1 := p }

def toksOf (s : CState) (i : Fin 2) : List Str := if i = 0 then s.toks0 else s.toks1

def pushAcc (s : CState) (i : Fin 2) (t : Str) : CState :=
  if i = 0 then { s with acc0 := s.acc0 ++ t } else { s with acc1 := s.acc1 ++ t }

/-- One atomic step of task `i` (no-op when the task is blocked on the lock
or already finished).  `entry → checking` is `async with user_locks[...]`;
`checking` is the `if ongoing_generation[character]` test under the lock;
`generating` covers placeholder, streaming and accumulation with the flag set;
the final `generating []` step commits the turn pair, clears the flag and
releases the lock. -/
def stepT (i : Fin 2) (s : CState) : CState :=
  match phaseOf s i with
  | TPhase.entry =>
    match s.lock with
    | none => setPhase { s with lock := some i } i TPhase.checking
    | some _ => s
  | TPhase.checking =>
    if s.flag then setPhase s i TPhase.busying
    else setPhase { s with flag := true } i (TPhase.generating (toksOf s i))
  | TPhase.busying =>
    setPhase { s with busySends := s.busySends + 1, lock := none } i TPhase.doneBusy
  | TPhase.doneBusy => s
  | TPhase.generating (t :: rest) => setPhase (pushAcc s i t) i (TPhase.generating rest)
  | TPhase.generating [] =>
    setPhase { s with commits := s.commits + 1, flag := false, lock := none } i TPhase.doneOk
  | TPhase.doneOk => s

def runSched (s : CState) : List (Fin 2) → CState
  | [] => s
  | i :: is => runSched (stepT i s) is

/-- Both invocations freshly arrived, lock free, flag clear. -/
def initC (t0 t1 : List Str) : CState :=
  { lock := none, flag := false, commits := 0, busySends := 0,
    toks0 := t0, toks1 := t1, p0 := TPhase.entry, p1 := TPhase.entry,
    acc0 := [], acc1 := [] }

/-! ### Invariant predicates used in the theorem statements -/

/-- Phases during which the task holds the persona lock (from acquisition in
`entry → checking` until release). -/
def holdsLock : TPhase → Bool
  | TPhase.checking => true
  | TPhase.busying => true
  | TPhase.generating _ => true
  | _ => false

/-- Each task holds the lock throughout its critical section; in particular a
task is in its Generating state only while it holds the persona lock. -/
def lockInv (s : CState) : Bool :=
  (!(holdsLock s.p0) || decide (s.lock = some 0)) &&
  (!(holdsLock s.p1) || decide (s.lock = some 1))

def mutexB (s : CState) : Bool := !(isGen s.p0 && isGen s.p1)

def notBusyPhase : TPhase → Bool
  | TPhase.busying => false
  | TPhase.doneBusy => false
  | _ => true

/-- Inductive invariant of a clean two-task run: the lock discipline, the flag
mirroring "some task is generating", and the busy branch never taken. -/
def cInv (s : CState) : Bool :=
  lockInv s && (s.flag == (isGen s.p0 || isGen s.p1)) &&
  notBusyPhase s.p0 && notBusyPhase s.p1 && decide (s.busySends = 0)

/-- Turn histories hold strictly alternating whole (user, assistant) pairs. -/
def pairedB : List Turn → Bool
  | [] => true
  | u :: a :: rest =>
    decide (u.role = userRole) && decide (a.role = assistantRole) && pairedB rest
  | _ => false

def pairedAllB (st : GState) : Bool := st.mem.all (fun p => pairedB p.2)

def boundAllB (st : GState) : Bool :=
  st.mem.all (fun p => decide (p.2.length ≤ 2 * MAX_MEMORY_TURNS))

/-- Every key present in `conversation_memory` is present in `last_activity`. -/
def memSubActB (st : GState) : Bool :=
  st.mem.all (fun p => (lookupL st.act p.1).isSome)

def keyMemB (st : GState) (k : MKey) : Bool := (lookupL st.mem k).isSome

def keyActB (st : GState) (k : MKey) : Bool := (lookupL st.act k).isSome

/-! ### Concrete inputs for witnesses and counterexamples -/

def lineA : Str := "\x7b\"message\":\x7b\"content\":\"a\"\x7d\x7d".data

def lineB : Str := "\x7b\"message\":\x7b\"content\":\"b\"\x7d\x7d".data

def lineDone : Str := "\x7b\"done\":true\x7d".data

/-- The three newline-terminated lines of the decoder claim, as one byte
chunk. -/
def abBytes : Str := lineA ++ '\n' :: lineB ++ '\n' :: lineDone ++ ['\n']

/-- A backend chunk streaming "Hi" and then the completion event. -/
def chunkHi : Str :=
  "\x7b\"message\":\x7b\"content\":\"Hi\"\x7d\x7d\n\x7b\"done\":true\x7d\n".data

def charW : Str := ['c']

def keyW : MKey := (7, charW)

def emptyG : GState := { mem := [], act := [], flags := [] }

/-- An environment in which every external call succeeds and the backend
streams "Hi" and completes. -/
def envOkW : Env :=
  { now := 0, basePrompt := ['b'], charPrompt := some ['p'],
    displayName := ['D'], userTag := ['u'], userOk := true, fetchErr := ['F'],
    opOk := fun _ => true, opErr := fun _ => ['E'],
    status := 200, chunks := [chunkHi], mono := fun _ => 0 }

/-- Like `envOkW`, but the transport call that revises the placeholder with
the first output segment (the third transport call of the success path)
fails. -/
def envFinalEditFails : Env := { envOkW with opOk := fun n => decide (n < 2) }

/-- Like `envOkW`, but sending the placeholder itself (the second transport
call) fails. -/
def envPlaceholderFails : Env := { envOkW with opOk := fun n => decide (n = 0) }

/-- All transport calls succeed but the configured persona does not exist. -/
def envNotFound : Env := { envOkW with charPrompt := none }

/-- All transport calls succeed but the backend is unavailable (HTTP 500). -/
def envHttp500 : Env := { envOkW with status := 500 }

/-- Backend unavailable and the wall clock far past the stored key's expiry. -/
def envHttp500Late : Env := { envOkW with status := 500, now := 100000000 }

/-- A state holding one committed turn pair for `keyW`, last touched at 0. -/
def stOnePair : GState :=
  { mem := [(keyW, [Turn.mk userRole ['h'], Turn.mk assistantRole ['r']])],
    act := [(keyW, 0)], flags := [] }

/-- C8 counterexample text: two paragraphs and a trailing newline, every
paragraph strictly under the limit 5, total length over it. -/
def c8Text : Str := "ab\ncd\n".data

/-- A schedule in which task 1 arrives while task 0 is generating (its entry
step at position 2 finds the lock held), and both invocations then run to
completion. -/
def schedW : List (Fin 2) := [0, 0, 1, 0, 0, 1, 1, 1, 1]

def initW : CState := initC [['x']] [['y']]

/-- The effect of the lazy `defaultdict` access on the memory map alone. -/
def memEnsure (m : List (MKey × List Turn)) (k : MKey) : List (MKey × List Turn) :=
  match lookupL m k with
  | some _ => m
  | none => m ++ [(k, [])]

/-- The effect of committing a turn pair on the memory map alone. -/
def memCommit (m : List (MKey × List Turn)) (k : MKey) (u a : Str) :
    List (MKey × List Turn) :=
  setk m k (appendPair ((lookupL m k).getD []) u a)

/-! ## Theorems -/

theorem appendPair_eq (l : List Turn) (u a : Str)
    (h : l.length ≤ 2 * MAX_MEMORY_TURNS) :
    appendPair l u a =
      l.drop (l.length + 2 - 2 * MAX_MEMORY_TURNS) ++
        [Turn.mk userRole u, Turn.mk assistantRole a] := by
  have hm : 2 * MAX_MEMORY_TURNS = 16 := by decide
  rw [hm] at h ⊢
  set u' := Turn.mk userRole u with hu'
  set a' := Turn.mk assistantRole a with ha'
  unfold appendPair
  rw [hm]
  rcases Nat.lt_or_ge l.length 15 with h14 | h15
  · have e1 : dequeAppend 16 l u' = l ++ [u'] := by
      unfold dequeAppend; rw [if_pos (by omega)]
    have e2 : dequeAppend 16 (l ++ [u']) a' = (l ++ [u']) ++ [a'] := by
      unfold dequeAppend
      rw [if_pos (by simp only [List.length_append, List.length_cons, List.length_nil]; omega)]
    rw [e1, e2]
    have h0 : l.length + 2 - 16 = 0 := by omega
    rw [h0, List.drop_zero, List.append_assoc]
    rfl
  · rcases Nat.eq_or_lt_of_le h15 with h15' | h16'
    · have e1 : dequeAppend 16 l u' = l ++ [u'] := by
        unfold dequeAppend; rw [if_pos (by omega)]
      have e2 : dequeAppend 16 (l ++ [u']) a' = l.drop 1 ++ [u'] ++ [a'] := by
        unfold dequeAppend
        rw [if_neg (by simp only [List.length_append, List.length_cons, List.length_nil]; omega)]
        have hk : (l ++ [u']).length + 1 - 16 = 1 := by
          simp only [List.length_append, List.length_cons, List.length_nil]; omega
        rw [hk, List.drop_append_of_le_length (by omega)]
      rw [e1, e2]
      have h1 : l.length + 2 - 16 = 1 := by omega
      rw [h1, List.append_assoc]
      rfl
    · have hlen : l.length = 16 := by omega
      have e1 : dequeAppend 16 l u' = l.drop 1 ++ [u'] := by
        unfold dequeAppend
        rw [if_neg (by omega)]
        have hk : l.length + 1 - 16 = 1 := by omega
        rw [hk]
      have e2 : dequeAppend 16 (l.drop 1 ++ [u']) a' = l.drop 2 ++ [u'] ++ [a'] := by
        unfold dequeAppend
        rw [if_neg (by simp only [List.length_append, List.length_drop,
          List.length_cons, List.length_nil]; omega)]
        have hk : (l.drop 1 ++ [u']).length + 1 - 16 = 1 := by
          simp only [List.length_append, List.length_drop, List.length_cons,
            List.length_nil]; omega
        rw [hk, List.drop_append_of_le_length (by simp only [List.length_drop]; omega),
          List.drop_drop]
      rw [e1, e2]
      have h2 : l.length + 2 - 16 = 2 := by omega
      rw [h2, List.append_assoc]
      rfl

theorem appendPair_length (l : List Turn) (u a : Str)
    (h : l.length ≤ 2 * MAX_MEMORY_TURNS) :
    (appendPair l u a).length = min (l.length + 2) (2 * MAX_MEMORY_TURNS) := by
  rw [appendPair_eq l u a h]
  simp only [List.length_append, List.length_drop, List.length_cons,
    List.length_nil, MAX_MEMORY_TURNS] at *
  omega

/-- C5: the per-key turn history never exceeds 2×MAX_TURNS entries under any
sequence of pair appends, and an append past the bound drops exactly the
oldest entries needed to restore the bound, keeping the newest in order
(FIFO eviction of the `deque(maxlen=2*MAX_MEMORY_TURNS)`). -/
theorem c5_memory_bound :
    (∀ (l : List Turn) (ps : List (Str × Str)),
        l.length ≤ 2 * MAX_MEMORY_TURNS →
        (ps.foldl (fun m p => appendPair m p.1 p.2) l).length ≤ 2 * MAX_MEMORY_TURNS) ∧
    (∀ (l : List Turn) (u a : Str),
        l.length ≤ 2 * MAX_MEMORY_TURNS →
        appendPair l u a =
          l.drop (l.length + 2 - 2 * MAX_MEMORY_TURNS) ++
            [Turn.mk userRole u, Turn.mk assistantRole a]) := by
  constructor
  · intro l ps
    induction ps generalizing l with
    | nil => intro h; simpa using h
    | cons p ps ih =>
      intro h
      simp only [List.foldl_cons]
      apply ih
      rw [appendPair_length _ _ _ h]
      simp only [MAX_MEMORY_TURNS] at *
      omega
  · exact appendPair_eq

theorem c5_memory_bound_witness :
    ((List.replicate 16 (Turn.mk userRole ['h'])).length ≤ 2 * MAX_MEMORY_TURNS) ∧
    (([((['u'] : Str), (['a'] : Str))].foldl (fun m p => appendPair m p.1 p.2)
        (List.replicate 16 (Turn.mk userRole ['h']))).length ≤ 2 * MAX_MEMORY_TURNS) :=
  ⟨by decide, c5_memory_bound.1 (List.replicate 16 (Turn.mk userRole ['h']))
      [((['u'] : Str), (['a'] : Str))] (by decide)⟩

theorem splitAllNl_ne_nil (s : Str) : splitAllNl s ≠ [] := by
  cases s with
  | nil => simp [splitAllNl]
  | cons c cs =>
    unfold splitAllNl
    split
    · simp
    · split <;> simp

theorem splitAllNl_append (a b : Str) (h : a.all (fun c => !(c = '\n')) = true) :
    splitAllNl (a ++ '\n' :: b) = a :: splitAllNl b := by
  induction a with
  | nil => simp [splitAllNl]
  | cons c cs ih =>
    simp only [List.all_cons, Bool.and_eq_true, Bool.not_eq_true'] at h
    have hc : ¬ (c = '\n') := by
      intro he; rw [he] at h; simpa using h.1
    have ihe := ih h.2
    simp only [List.cons_append, splitAllNl, if_neg hc, List.append_eq, ihe]

theorem processLines_lineA (acc : List Str) (rest : List Str) :
    processLines acc (lineA :: rest) = processLines (acc ++ [['a']]) rest := rfl

theorem processLines_lineB (acc : List Str) (rest : List Str) :
    processLines acc (lineB :: rest) = processLines (acc ++ [['b']]) rest := rfl

theorem processLines_lineDone (acc : List Str) (rest : List Str) :
    processLines acc (lineDone :: rest) = LineOut.fin acc := rfl

/-- C7: on the byte stream whose lines are the two content events "a", "b"
and then the completion event, `stream_ollama` yields exactly ["a", "b"] and
terminates without error; any bytes after the completion line — whether
already buffered in the same chunk or arriving in later chunks — are never
yielded and never affect the result. -/
theorem c7_decoder_termination (garbage : Str) (rest : List Str) :
    runStream 200 ((abBytes ++ garbage) :: rest) = ([['a'], ['b']], none) := by
  have hform : abBytes ++ garbage =
      lineA ++ '\n' :: (lineB ++ '\n' :: (lineDone ++ '\n' :: garbage)) := by
    simp [abBytes, List.append_assoc]
  have hs : splitAllNl (abBytes ++ garbage) =
      lineA :: lineB :: lineDone :: splitAllNl garbage := by
    rw [hform, splitAllNl_append _ _ (by decide), splitAllNl_append _ _ (by decide),
      splitAllNl_append _ _ (by decide)]
  obtain ⟨x, xs, hX⟩ := List.exists_cons_of_ne_nil (splitAllNl_ne_nil garbage)
  rw [hX] at hs
  have hdl : (lineA :: lineB :: lineDone :: x :: xs).dropLast =
      lineA :: lineB :: lineDone :: (x :: xs).dropLast := by
    simp [List.dropLast]
  unfold runStream
  rw [if_pos rfl]
  simp only [feed, List.nil_append, hs, hdl]
  rw [processLines_lineA, processLines_lineB, processLines_lineDone]
  simp

theorem intercalateNl_cons₂ (s t : Str) (ss : List Str) :
    intercalateNl (s :: t :: ss) = s ++ '\n' :: intercalateNl (t :: ss) := rfl

theorem intercalateNl_append_singleton (xs : List Str) (y : Str) (h : xs ≠ []) :
    intercalateNl (xs ++ [y]) = intercalateNl xs ++ '\n' :: y := by
  induction xs with
  | nil => exact absurd rfl h
  | cons x xs ih =>
    cases xs with
    | nil => rfl
    | cons x2 xs2 =>
      have ih2 := ih (by simp)
      simp only [List.cons_append] at ih2 ⊢
      rw [intercalateNl_cons₂, intercalateNl_cons₂, ih2]
      simp

theorem intercalateNl_extend_last (xs : List Str) (y z : Str) :
    intercalateNl (xs ++ [y ++ z]) = intercalateNl (xs ++ [y]) ++ z := by
  induction xs with
  | nil => rfl
  | cons x xs ih =>
    cases xs with
    | nil =>
      show intercalateNl [x, y ++ z] = intercalateNl [x, y] ++ z
      rw [intercalateNl_cons₂, intercalateNl_cons₂]
      simp [intercalateNl]
    | cons x2 xs2 =>
      simp only [List.cons_append] at ih ⊢
      rw [intercalateNl_cons₂, intercalateNl_cons₂, ih]
      simp

theorem intercalateNl_splitAllNl (s : Str) : intercalateNl (splitAllNl s) = s := by
  induction s with
  | nil => rfl
  | cons c cs ih =>
    unfold splitAllNl
    by_cases hc : c = '\n'
    · rw [if_pos hc]
      obtain ⟨x, xs, hX⟩ := List.exists_cons_of_ne_nil (splitAllNl_ne_nil cs)
      rw [hX, intercalateNl_cons₂]
      rw [hX] at ih
      rw [ih, hc]
      rfl
    · rw [if_neg hc]
      obtain ⟨x, xs, hX⟩ := List.exists_cons_of_ne_nil (splitAllNl_ne_nil cs)
      rw [hX]
      rw [hX] at ih
      cases xs with
      | nil =>
        simp only [intercalateNl] at ih ⊢
        rw [ih]
      | cons x2 xs2 =>
        rw [intercalateNl_cons₂] at ih
        rw [intercalateNl_cons₂, List.cons_append, ih]

theorem smFold_sizes (limit : Nat) (pars : List Str) :
    ∀ (ps : List Str) (chunks : List Str) (current : Str),
      (∀ c ∈ chunks, c.length ≤ limit ∨ c ∈ pars) →
      (current.length ≤ limit ∨ current ∈ pars) →
      (∀ p ∈ ps, p ∈ pars) →
      (∀ c ∈ (ps.foldl (smStep limit) (chunks, current)).1,
          c.length ≤ limit ∨ c ∈ pars) ∧
      ((ps.foldl (smStep limit) (chunks, current)).2.length ≤ limit ∨
        (ps.foldl (smStep limit) (chunks, current)).2 ∈ pars) := by
  intro ps
  induction ps with
  | nil => intro chunks current hc hcur hps; exact ⟨hc, hcur⟩
  | cons p ps ih =>
    intro chunks current hc hcur hps
    simp only [List.foldl_cons]
    unfold smStep
    by_cases hov : current.length + p.length + 1 > limit
    · rw [if_pos hov]
      apply ih
      · intro c hcm
        rcases List.mem_append.1 hcm with h1 | h2
        · exact hc c h1
        · rw [List.mem_singleton.1 h2]; exact hcur
      · exact Or.inr (hps p (by simp))
      · intro q hq; exact hps q (by simp [hq])
    · rw [if_neg hov]
      by_cases hemp : current = []
      · rw [if_pos hemp]
        apply ih
        · exact hc
        · left
          rw [hemp] at hov
          simp only [List.length_nil] at hov
          omega
        · intro q hq; exact hps q (by simp [hq])
      · rw [if_neg hemp]
        apply ih
        · exact hc
        · left
          simp only [List.length_append, List.length_cons]
          omega
        · intro q hq; exact hps q (by simp [hq])

theorem smFold_join (limit : Nat) :
    ∀ (ps chunks : List Str) (current : Str) (consumed : List Str),
      (∀ p ∈ ps, p ≠ [] ∧ p.length < limit) →
      current ≠ [] → consumed ≠ [] →
      intercalateNl (chunks ++ [current]) = intercalateNl consumed →
      (ps.foldl (smStep limit) (chunks, current)).2 ≠ [] ∧
      intercalateNl ((ps.foldl (smStep limit) (chunks, current)).1 ++
          [(ps.foldl (smStep limit) (chunks, current)).2]) =
        intercalateNl (consumed ++ ps) := by
  intro ps
  induction ps with
  | nil =>
    intro chunks current consumed hps hcur hcon hj
    simpa using ⟨hcur, hj⟩
  | cons p ps ih =>
    intro chunks current consumed hps hcur hcon hj
    obtain ⟨hpne, hplt⟩ := hps p (by simp)
    simp only [List.foldl_cons]
    unfold smStep
    by_cases hov : current.length + p.length + 1 > limit
    · rw [if_pos hov]
      have hstep : intercalateNl ((chunks ++ [current]) ++ [p]) =
          intercalateNl (consumed ++ [p]) := by
        rw [intercalateNl_append_singleton _ _ (by simp),
          intercalateNl_append_singleton _ _ hcon, hj]
      have := ih (chunks ++ [current]) p (consumed ++ [p])
        (fun q hq => hps q (by simp [hq])) hpne (by simp) hstep
      rw [List.append_assoc] at this
      simpa using this
    · rw [if_neg hov]
      rw [if_neg hcur]
      have hstep : intercalateNl (chunks ++ [current ++ '\n' :: p]) =
          intercalateNl (consumed ++ [p]) := by
        rw [show current ++ '\n' :: p = current ++ ('\n' :: p) from rfl,
          intercalateNl_extend_last, hj,
          intercalateNl_append_singleton _ _ hcon]
      have := ih chunks (current ++ '\n' :: p) (consumed ++ [p])
        (fun q hq => hps q (by simp [hq])) (by simp) (by simp) hstep
      rw [List.append_assoc] at this
      simpa using this

/-- C8 counterexample: for limit 5 and the text "ab\ncd\n" every paragraph
has length ≤ 5 (none exceeds the limit), yet joining the produced segments
with a newline yields "ab\ncd", not the original text: the trailing empty
paragraph is dropped when the accumulator is closed exactly at the limit. -/
theorem c8_counterexample :
    (∀ p ∈ splitAllNl c8Text, p.length ≤ 5) ∧
    intercalateNl (splitMessageGen 5 c8Text) ≠ c8Text := by
  constructor
  · decide
  · decide

/-- C8 amended: every segment produced by the chunker either fits the limit
or is a single (oversized) paragraph of the input, emitted undivided; and
joining the segments with a newline reconstructs the text exactly whenever
every paragraph of the text is nonempty and strictly shorter than the limit.
(As the counterexample shows, "no paragraph exceeds the limit" alone is not
enough: an empty paragraph, or a paragraph of length exactly the limit,
can make the join differ from the text.) -/
theorem c8_amended :
    (∀ (limit : Nat) (text : Str) (c : Str), c ∈ splitMessageGen limit text →
        c.length ≤ limit ∨ (c ∈ splitAllNl text ∧ limit < c.length)) ∧
    (∀ (limit : Nat) (text : Str),
        (∀ p ∈ splitAllNl text, p ≠ [] ∧ p.length < limit) →
        intercalateNl (splitMessageGen limit text) = text) := by
  constructor
  · intro limit text c hc
    have H := smFold_sizes limit (splitAllNl text) (splitAllNl text) [] []
      (by simp) (by simp) (fun p hp => hp)
    simp only [splitMessageGen] at hc
    split at hc
    · rename_i h
      rw [List.mem_singleton.1 hc]
      exact Or.inl h
    · rename_i h
      have hP : c.length ≤ limit ∨ c ∈ splitAllNl text := by
        split at hc
        · exact H.1 c hc
        · rcases List.mem_append.1 hc with h1 | h2
          · exact H.1 c h1
          · rw [List.mem_singleton.1 h2]; exact H.2
      by_cases hcl : c.length ≤ limit
      · exact Or.inl hcl
      · rcases hP with h1 | h2
        · exact Or.inl h1
        · exact Or.inr ⟨h2, by omega⟩
  · intro limit text hp
    unfold splitMessageGen
    split
    · rfl
    · rename_i h
      obtain ⟨p, ps, hX⟩ := List.exists_cons_of_ne_nil (splitAllNl_ne_nil text)
      obtain ⟨hpne, hplt⟩ := hp p (by rw [hX]; simp)
      have hfirst : smStep limit (([] : List Str), ([] : Str)) p = ([], p) := by
        unfold smStep
        rw [if_neg (by simp only [List.length_nil]; omega), if_pos rfl]
      have hJ := smFold_join limit ps [] p [p]
        (fun q hq => hp q (by rw [hX]; simp [hq]))
        hpne (by simp) (by simp)
      rw [hX, List.foldl_cons, hfirst]
      rw [if_neg hJ.1, hJ.2]
      have : ([p] ++ ps) = p :: ps := rfl
      rw [this, ← hX, intercalateNl_splitAllNl]

theorem c8_amended_witness :
    (("abc".data ∈ splitMessageGen 4 ("abc\nde\nfg".data)) ∧
      ("abc".data.length ≤ 4 ∨
        ("abc".data ∈ splitAllNl ("abc\nde\nfg".data) ∧ 4 < "abc".data.length))) ∧
    ((∀ p ∈ splitAllNl ("abc\nde\nfg".data), p ≠ [] ∧ p.length < 4) ∧
      intercalateNl (splitMessageGen 4 ("abc\nde\nfg".data)) = "abc\nde\nfg".data) :=
  ⟨⟨by decide, c8_amended.1 4 ("abc\nde\nfg".data) ("abc".data) (by decide)⟩,
   ⟨by decide, c8_amended.2 4 ("abc\nde\nfg".data) (by decide)⟩⟩

theorem finishClear_fst (env : Env) (eff : Eff) (st : GState) (c : Str) :
    (finishClear env eff st c).1 = { st with flags := setk st.flags c false } := by
  simp only [finishClear]
  split
  · rfl
  · split <;> rfl

theorem finishClear_mem (env : Env) (eff : Eff) (st : GState) (c : Str) :
    (finishClear env eff st c).1.mem = st.mem := by rw [finishClear_fst]

theorem finishClear_act (env : Env) (eff : Eff) (st : GState) (c : Str) :
    (finishClear env eff st c).1.act = st.act := by rw [finishClear_fst]

theorem editThenClear_mem (env : Env) (eff : Eff) (st : GState) (c : Str)
    (t : Nat) (m : Str) : (editThenClear env eff st c t m).1.mem = st.mem := by
  unfold editThenClear
  split
  · rw [finishClear_mem]
  · rfl

theorem editThenClear_act (env : Env) (eff : Eff) (st : GState) (c : Str)
    (t : Nat) (m : Str) : (editThenClear env eff st c t m).1.act = st.act := by
  unfold editThenClear
  split
  · rw [finishClear_act]
  · rfl

theorem ensureKey_mem (st : GState) (k : MKey) :
    (ensureKey st k).mem = memEnsure st.mem k := by
  unfold ensureKey memEnsure
  split <;> rfl

theorem ensureKey_act (st : GState) (k : MKey) : (ensureKey st k).act = st.act := by
  unfold ensureKey
  split <;> rfl

theorem commitPair_mem (st : GState) (k : MKey) (u a : Str) :
    (commitPair st k u a).mem = memCommit st.mem k u a := rfl

/-- On every code path, `handle` leaves `last_activity` exactly as the entry
sweep plus the touch of the invocation's key left it. -/
theorem handle_act (env : Env) (st0 : GState) (uid : Nat) (ch msg : Str) :
    (handle env st0 uid ch msg).1.act =
      setk (cleanupState env.now st0).act (uid, ch) env.now := by
  simp only [handle]
  repeat' split
  all_goals
    first
      | rfl
      | simp [editThenClear_act, finishClear_act, ensureKey_act, commitPair]

/-- On every code path, the final memory map is the swept map, or the swept
map with the key's empty history lazily created, or that map with one turn
pair committed. -/
theorem handle_mem_cases (env : Env) (st0 : GState) (uid : Nat) (ch msg : Str) :
    (handle env st0 uid ch msg).1.mem = (cleanupState env.now st0).mem ∨
    (handle env st0 uid ch msg).1.mem =
      memEnsure (cleanupState env.now st0).mem (uid, ch) ∨
    ∃ r, (handle env st0 uid ch msg).1.mem =
      memCommit (memEnsure (cleanupState env.now st0).mem (uid, ch)) (uid, ch) msg r := by
  simp only [handle]
  repeat' split
  all_goals
    first
      | exact Or.inl rfl
      | (refine Or.inr (Or.inl ?_); rw [editThenClear_mem, ensureKey_mem])
      | (refine Or.inr (Or.inr ?_);
         first
           | exact ⟨_, by rw [finishClear_mem, commitPair_mem, ensureKey_mem]⟩
           | exact ⟨_, by rw [commitPair_mem, ensureKey_mem]⟩)

theorem lookupL_cons {α β : Type} [DecidableEq α] (p : α × β) (m : List (α × β)) (k : α) :
    lookupL (p :: m) k = if p.1 = k then some p.2 else lookupL m k := by
  by_cases h : p.1 = k <;> simp [lookupL, List.find?_cons, h]

theorem lookupL_append {α β : Type} [DecidableEq α] (m m' : List (α × β)) (k : α) :
    lookupL (m ++ m') k =
      match lookupL m k with
      | some v => some v
      | none => lookupL m' k := by
  induction m with
  | nil => simp [lookupL]
  | cons p m ih =>
    rw [List.cons_append, lookupL_cons, lookupL_cons]
    by_cases h : p.1 = k
    · rw [if_pos h, if_pos h]
    · rw [if_neg h, if_neg h, ih]

theorem any_key_false_lookup {α β : Type} [DecidableEq α] (m : List (α × β)) (k : α)
    (h : (m.any fun p => decide (p.1 = k)) = false) : lookupL m k = none := by
  induction m with
  | nil => rfl
  | cons p m ih =>
    simp only [List.any_cons, Bool.or_eq_false_iff] at h
    rw [lookupL_cons, if_neg (by simpa using h.1)]
    exact ih h.2

theorem lookupL_map_replace_self {α β : Type} [DecidableEq α]
    (m : List (α × β)) (k : α) (v : β)
    (h : (m.any fun p => decide (p.1 = k)) = true) :
    lookupL (m.map fun p => if p.1 = k then (k, v) else p) k = some v := by
  induction m with
  | nil => simp at h
  | cons p m ih =>
    simp only [List.map_cons]
    by_cases hp : p.1 = k
    · rw [if_pos hp, lookupL_cons, if_pos rfl]
    · rw [if_neg hp, lookupL_cons, if_neg hp]
      apply ih
      simp only [List.any_cons, Bool.or_eq_true_iff] at h
      rcases h with h1 | h2
      · exact absurd (of_decide_eq_true h1) hp
      · exact h2

theorem lookupL_map_replace_ne {α β : Type} [DecidableEq α]
    (m : List (α × β)) (k k' : α) (v : β) (hk : k' ≠ k) :
    lookupL (m.map fun p => if p.1 = k then (k, v) else p) k' = lookupL m k' := by
  induction m with
  | nil => rfl
  | cons p m ih =>
    simp only [List.map_cons]
    by_cases hp : p.1 = k
    · rw [if_pos hp, lookupL_cons, lookupL_cons,
        if_neg (fun he : k = k' => hk he.symm),
        if_neg (fun he : p.1 = k' => hk (he.symm.trans hp))]
      exact ih
    · rw [if_neg hp, lookupL_cons, lookupL_cons]
      by_cases hpk : p.1 = k'
      · rw [if_pos hpk, if_pos hpk]
      · rw [if_neg hpk, if_neg hpk]
        exact ih

theorem lookupL_setk {α β : Type} [DecidableEq α] (m : List (α × β)) (k k' : α) (v : β) :
    lookupL (setk m k v) k' = if k' = k then some v else lookupL m k' := by
  unfold setk
  split
  · rename_i hany
    by_cases hk : k' = k
    · subst hk
      rw [if_pos rfl]
      exact lookupL_map_replace_self m k' v hany
    · rw [if_neg hk]
      exact lookupL_map_replace_ne m k k' v hk
  · rename_i hany
    have hnone : lookupL m k = none :=
      any_key_false_lookup m k (Bool.eq_false_iff.2 hany)
    rw [lookupL_append]
    by_cases hk : k' = k
    · subst hk
      rw [hnone, if_pos rfl, lookupL_cons]
      simp
    · rw [if_neg hk]
      cases h : lookupL m k' with
      | some w => rfl
      | none =>
        rw [lookupL_cons, if_neg (fun he : k = k' => hk he.symm)]
        rfl

theorem mem_setk {α β : Type} [DecidableEq α] {m : List (α × β)} {k : α} {v : β}
    {p : α × β} (h : p ∈ setk m k v) : p.1 = k ∨ p ∈ m := by
  unfold setk at h
  split at h
  · obtain ⟨q, hq, hfq⟩ := List.mem_map.1 h
    by_cases hqk : q.1 = k
    · rw [if_pos hqk] at hfq
      left
      rw [← hfq]
    · rw [if_neg hqk] at hfq
      right
      rw [← hfq]
      exact hq
  · rcases List.mem_append.1 h with h1 | h2
    · right; exact h1
    · left; rw [List.mem_singleton.1 h2]

theorem lookupL_filter_key {α β : Type} [DecidableEq α]
    (m : List (α × β)) (q : α → Bool) (k : α) (hq : q k = true) :
    lookupL (m.filter fun p => q p.1) k = lookupL m k := by
  induction m with
  | nil => rfl
  | cons p m ih =>
    rw [List.filter_cons]
    by_cases hp : p.1 = k
    · rw [if_pos (by rw [hp, hq])]
      rw [lookupL_cons, lookupL_cons]
      rw [if_pos hp, if_pos hp]
    · split
      · rw [lookupL_cons, lookupL_cons, if_neg hp, if_neg hp]
        exact ih
      · rw [lookupL_cons, if_neg hp]
        exact ih

theorem lookupL_filter_of_pass {α β : Type} [DecidableEq α]
    (m : List (α × β)) (q : α × β → Bool) (k : α) (v : β)
    (h : lookupL m k = some v) (hq : q (k, v) = true) :
    lookupL (m.filter q) k = some v := by
  induction m with
  | nil => simp [lookupL] at h
  | cons p m ih =>
    rw [lookupL_cons] at h
    by_cases hp : p.1 = k
    · rw [if_pos hp] at h
      have hpv : p = (k, v) := by
        obtain ⟨p1, p2⟩ := p
        simp only at hp
        simp only [Option.some.injEq] at h
        rw [Prod.mk.injEq]
        exact ⟨hp, h⟩
      rw [List.filter_cons, hpv, if_pos hq, lookupL_cons, if_pos rfl]
    · rw [if_neg hp] at h
      rw [List.filter_cons]
      split
      · rw [lookupL_cons, if_neg hp]
        exact ih h
      · exact ih h

theorem keyExpired_some (now : Int) (act : List (MKey × Int)) (k : MKey) (ts : Int)
    (h : lookupL act k = some ts) :
    keyExpired now act k = decide (now - ts > MEMORY_EXPIRY_SECONDS) := by
  unfold keyExpired
  rw [h]

/-- After the expiry sweep, every surviving memory key still has its activity
record (assuming it had one before). -/
theorem cleanup_pres_sub (now : Int) (st : GState) (h : memSubActB st = true) :
    ∀ p ∈ (cleanupState now st).mem, (lookupL (cleanupState now st).act p.1).isSome = true := by
  intro p hp
  unfold cleanupState at hp ⊢
  simp only at hp ⊢
  obtain ⟨hpm, hpq⟩ := List.mem_filter.1 hp
  have hsome := (List.all_eq_true.1 h) p hpm
  simp only [Option.isSome_iff_exists] at hsome
  obtain ⟨ts, hts⟩ := hsome
  have hexp : keyExpired now st.act p.1 = false := by
    simpa using hpq
  rw [keyExpired_some now st.act p.1 ts hts] at hexp
  have : lookupL (st.act.filter fun q => !decide (now - q.2 > MEMORY_EXPIRY_SECONDS)) p.1
      = some ts := by
    apply lookupL_filter_of_pass st.act _ p.1 ts hts
    simp only [Bool.not_eq_true']
    exact hexp
  rw [this]
  rfl

/-- C6 counterexample: a request for a persona with no configured prompt
records the key in `last_activity` (line 162 runs before the prompt load of
line 165) but never creates the memory entry, so the key ends up present in
exactly one of the two maps. -/
theorem c6_counterexample :
    keyActB (handle envNotFound emptyG 7 charW (['h'])).1 keyW = true ∧
    keyMemB (handle envNotFound emptyG 7 charW (['h'])).1 keyW = false := by
  constructor
  · decide
  · decide

/-- C6 amended: only one direction of the pairing invariant holds — every key
present in `conversation_memory` also has a `last_activity` record, and this
is preserved by `handle` (on every path), by the expiry sweep and by the
clear-memory command.  The converse fails: `last_activity` can hold keys with
no memory entry (see the counterexample). -/
theorem c6_amended (env : Env) (st : GState) (uid uid2 : Nat) (ch msg : Str)
    (now : Int) (h : memSubActB st = true) :
    memSubActB (handle env st uid ch msg).1 = true ∧
    memSubActB (cleanupState now st) = true ∧
    memSubActB (clearMemory st uid2).1 = true := by
  refine ⟨?_, ?_, ?_⟩
  · have hact := handle_act env st uid ch msg
    have hmem := handle_mem_cases env st uid ch msg
    apply List.all_eq_true.2
    intro p hp
    have base : ∀ q ∈ (cleanupState env.now st).mem,
        (lookupL (handle env st uid ch msg).1.act q.1).isSome = true := by
      intro q hq
      rw [hact, lookupL_setk]
      split
      · rfl
      · exact cleanup_pres_sub env.now st h q hq
    have hkey : (lookupL (handle env st uid ch msg).1.act (uid, ch)).isSome = true := by
      rw [hact, lookupL_setk, if_pos rfl]
      rfl
    have ens : ∀ q ∈ memEnsure (cleanupState env.now st).mem (uid, ch),
        (lookupL (handle env st uid ch msg).1.act q.1).isSome = true := by
      intro q hq
      unfold memEnsure at hq
      split at hq
      · exact base q hq
      · rcases List.mem_append.1 hq with h1 | h2
        · exact base q h1
        · rw [List.mem_singleton.1 h2]
          exact hkey
    rcases hmem with h1 | h2 | ⟨r, h3⟩
    · rw [h1] at hp
      exact base p hp
    · rw [h2] at hp
      exact ens p hp
    · rw [h3] at hp
      unfold memCommit at hp
      rcases mem_setk hp with hk | hin
      · rw [hk]
        exact hkey
      · exact ens p hin
  · apply List.all_eq_true.2
    intro p hp
    exact cleanup_pres_sub now st h p hp
  · apply List.all_eq_true.2
    intro p hp
    unfold clearMemory at hp ⊢
    simp only at hp ⊢
    obtain ⟨hpm, hpq⟩ := List.mem_filter.1 hp
    have hsome := (List.all_eq_true.1 h) p hpm
    simp only [Option.isSome_iff_exists] at hsome
    obtain ⟨ts, hts⟩ := hsome
    rw [lookupL_filter_key st.act (fun k => decide (k ∉ clearKeys st uid2)) p.1 hpq, hts]
    rfl

theorem c6_amended_witness :
    memSubActB stOnePair = true ∧
    memSubActB (handle envOkW stOnePair 7 charW (['h'])).1 = true ∧
    memSubActB (cleanupState 5 stOnePair) = true ∧
    memSubActB (clearMemory stOnePair 7).1 = true :=
  ⟨by decide,
   (c6_amended envOkW stOnePair 7 7 charW (['h']) 5 (by decide)).1,
   (c6_amended envOkW stOnePair 7 7 charW (['h']) 5 (by decide)).2.1,
   (c6_amended envOkW stOnePair 7 7 charW (['h']) 5 (by decide)).2.2⟩

theorem pairedB_append (l : List Turn) (u a : Str) (h : pairedB l = true) :
    pairedB (l ++ [Turn.mk userRole u, Turn.mk assistantRole a]) = true := by
  induction l using pairedB.induct with
  | case1 => simp [pairedB]
  | case2 u' a' rest ih =>
    simp only [List.cons_append, pairedB, Bool.and_eq_true] at h ⊢
    exact ⟨h.1, ih h.2⟩
  | case3 x hx => simp [pairedB] at h

theorem pairedB_even (l : List Turn) (h : pairedB l = true) : l.length % 2 = 0 := by
  induction l using pairedB.induct with
  | case1 => rfl
  | case2 u' a' rest ih =>
    simp only [pairedB, Bool.and_eq_true] at h
    have := ih h.2
    simp only [List.length_cons]
    omega
  | case3 x hx => simp [pairedB] at h

theorem pairedB_drop2 (l : List Turn) (h : pairedB l = true) :
    pairedB (l.drop 2) = true := by
  induction l using pairedB.induct with
  | case1 => exact h
  | case2 u' a' rest ih =>
    simp only [pairedB, Bool.and_eq_true] at h
    simpa using h.2
  | case3 x hx => simp [pairedB] at h

theorem pairedB_appendPair (l : List Turn) (u a : Str)
    (hp : pairedB l = true) (hb : l.length ≤ 2 * MAX_MEMORY_TURNS) :
    pairedB (appendPair l u a) = true ∧
    (appendPair l u a).length ≤ 2 * MAX_MEMORY_TURNS := by
  have heven := pairedB_even l hp
  rw [appendPair_eq l u a hb]
  have hm : 2 * MAX_MEMORY_TURNS = 16 := by decide
  rw [hm] at hb ⊢
  constructor
  · have hd : l.length + 2 - 16 = 0 ∨ l.length + 2 - 16 = 2 := by omega
    rcases hd with hd | hd
    · rw [hd, List.drop_zero]
      exact pairedB_append l u a hp
    · rw [hd]
      exact pairedB_append _ u a (pairedB_drop2 l hp)
  · simp only [List.length_append, List.length_drop, List.length_cons, List.length_nil]
    omega

theorem mem_setk_eq {α β : Type} [DecidableEq α] {m : List (α × β)} {k : α} {v : β}
    {p : α × β} (h : p ∈ setk m k v) : p = (k, v) ∨ p ∈ m := by
  unfold setk at h
  split at h
  · obtain ⟨q, hq, hfq⟩ := List.mem_map.1 h
    by_cases hqk : q.1 = k
    · rw [if_pos hqk] at hfq
      left
      rw [← hfq]
    · rw [if_neg hqk] at hfq
      right
      rw [← hfq]
      exact hq
  · rcases List.mem_append.1 h with h1 | h2
    · right; exact h1
    · left; exact List.mem_singleton.1 h2

theorem lookupL_some_val {α β : Type} [DecidableEq α] {m : List (α × β)} {k : α} {v : β}
    (h : lookupL m k = some v) : ∃ p ∈ m, p.2 = v := by
  unfold lookupL at h
  cases hf : m.find? (fun p => decide (p.1 = k)) with
  | none => rw [hf] at h; simp at h
  | some p0 =>
    rw [hf] at h
    simp only [Option.map_some', Option.some.injEq] at h
    exact ⟨p0, List.mem_of_find?_eq_some hf, h⟩

/-- C9: between operations, every stored turn history consists of whole
(user, assistant) pairs in order — even length, strictly alternating roles
starting with "user" — because turns are committed only as pairs and the
even-bounded FIFO eviction of the deque removes whole pairs.  The invariant
(together with the deque length bound) is preserved by `handle` on every code
path, by the expiry sweep, and by the clear-memory command. -/
theorem c9_paired_invariant (env : Env) (st : GState) (uid uid2 : Nat)
    (ch msg : Str) (now : Int)
    (h1 : pairedAllB st = true) (h2 : boundAllB st = true) :
    (pairedAllB (handle env st uid ch msg).1 = true ∧
      boundAllB (handle env st uid ch msg).1 = true) ∧
    (pairedAllB (cleanupState now st) = true ∧
      boundAllB (cleanupState now st) = true) ∧
    (pairedAllB (clearMemory st uid2).1 = true ∧
      boundAllB (clearMemory st uid2).1 = true) := by
  have hP : ∀ p ∈ st.mem, pairedB p.2 = true ∧ p.2.length ≤ 2 * MAX_MEMORY_TURNS := by
    intro p hp
    refine ⟨List.all_eq_true.1 h1 p hp, ?_⟩
    have := List.all_eq_true.1 h2 p hp
    exact of_decide_eq_true this
  have hBase : ∀ (t : Int), ∀ p ∈ (cleanupState t st).mem,
      pairedB p.2 = true ∧ p.2.length ≤ 2 * MAX_MEMORY_TURNS := by
    intro t p hp
    exact hP p (List.mem_filter.1 hp).1
  have hEns : ∀ p ∈ memEnsure (cleanupState env.now st).mem (uid, ch),
      pairedB p.2 = true ∧ p.2.length ≤ 2 * MAX_MEMORY_TURNS := by
    intro p hp
    unfold memEnsure at hp
    split at hp
    · exact hBase env.now p hp
    · rcases List.mem_append.1 hp with ha | hb
      · exact hBase env.now p ha
      · rw [List.mem_singleton.1 hb]
        exact ⟨rfl, by simp [MAX_MEMORY_TURNS]⟩
  have hCommit : ∀ (r : Str), ∀ p ∈
      memCommit (memEnsure (cleanupState env.now st).mem (uid, ch)) (uid, ch) msg r,
      pairedB p.2 = true ∧ p.2.length ≤ 2 * MAX_MEMORY_TURNS := by
    intro r p hp
    unfold memCommit at hp
    have hv : pairedB ((lookupL
          (memEnsure (cleanupState env.now st).mem (uid, ch)) (uid, ch)).getD []) = true ∧
        ((lookupL (memEnsure (cleanupState env.now st).mem (uid, ch)) (uid, ch)).getD
          []).length ≤ 2 * MAX_MEMORY_TURNS := by
      cases hv2 : lookupL (memEnsure (cleanupState env.now st).mem (uid, ch)) (uid, ch) with
      | none => exact ⟨rfl, by simp [MAX_MEMORY_TURNS]⟩
      | some w =>
        obtain ⟨q, hq, hqv⟩ := lookupL_some_val hv2
        simp only [Option.getD_some]
        rw [← hqv]
        exact hEns q hq
    rcases mem_setk_eq hp with he | hin
    · rw [he]
      exact pairedB_appendPair _ msg r hv.1 hv.2
    · exact hEns p hin
  refine ⟨⟨?_, ?_⟩, ⟨?_, ?_⟩, ⟨?_, ?_⟩⟩
  · apply List.all_eq_true.2
    intro p hp
    rcases handle_mem_cases env st uid ch msg with hm | hm | ⟨r, hm⟩
    · exact (hBase env.now p (hm ▸ hp)).1
    · exact (hEns p (hm ▸ hp)).1
    · exact (hCommit r p (hm ▸ hp)).1
  · apply List.all_eq_true.2
    intro p hp
    rcases handle_mem_cases env st uid ch msg with hm | hm | ⟨r, hm⟩
    · exact decide_eq_true (hBase env.now p (hm ▸ hp)).2
    · exact decide_eq_true (hEns p (hm ▸ hp)).2
    · exact decide_eq_true (hCommit r p (hm ▸ hp)).2
  · apply List.all_eq_true.2
    intro p hp
    exact (hBase now p hp).1
  · apply List.all_eq_true.2
    intro p hp
    exact decide_eq_true (hBase now p hp).2
  · apply List.all_eq_true.2
    intro p hp
    exact (hP p (List.mem_filter.1 hp).1).1
  · apply List.all_eq_true.2
    intro p hp
    exact decide_eq_true (hP p (List.mem_filter.1 hp).1).2

theorem c9_paired_invariant_witness :
    (pairedAllB stOnePair = true ∧ boundAllB stOnePair = true) ∧
    pairedAllB (handle envOkW stOnePair 7 charW (['h'])).1 = true ∧
    pairedAllB (clearMemory stOnePair 7).1 = true :=
  ⟨⟨by decide, by decide⟩,
   (c9_paired_invariant envOkW stOnePair 7 7 charW (['h']) 5 (by decide) (by decide)).1.1,
   (c9_paired_invariant envOkW stOnePair 7 7 charW (['h']) 5 (by decide) (by decide)).2.2.1⟩

theorem doSend_ok (env : Env) (eff : Eff) (c : Str) (h : env.opOk eff.opIdx = true) :
    doSend env eff c =
      ({ opIdx := eff.opIdx + 1, msgCount := eff.msgCount + 1,
         trace := eff.trace ++ [Ev.sent eff.msgCount c] }, Except.ok eff.msgCount) := by
  simp [doSend, h]

theorem doEdit_ok (env : Env) (eff : Eff) (t : Nat) (c : Str)
    (h : env.opOk eff.opIdx = true) :
    doEdit env eff t c =
      ({ eff with opIdx := eff.opIdx + 1,
                  trace := eff.trace ++ [Ev.edited t c] }, Except.ok ()) := by
  simp [doEdit, h]

theorem doPresence_ok (env : Env) (eff : Eff) (b : Bool)
    (h : env.opOk eff.opIdx = true) :
    doPresence env eff b =
      ({ eff with opIdx := eff.opIdx + 1,
                  trace := eff.trace ++ [Ev.presence b] }, Except.ok ()) := by
  simp [doPresence, h]

theorem finishClear_ok (env : Env) (eff : Eff) (st : GState) (c : Str)
    (hops : ∀ n, env.opOk n = true) :
    finishClear env eff st c =
      ({ st with flags := setk st.flags c false },
       (if (setk st.flags c false).any (fun p => p.2) then eff.trace
        else eff.trace ++ [Ev.presence false]),
       HRes.ret) := by
  simp only [finishClear, doPresence, hops, if_true]
  split <;> rfl

theorem editThenClear_ok (env : Env) (eff : Eff) (st : GState) (c : Str)
    (t : Nat) (m : Str) (hops : ∀ n, env.opOk n = true) :
    editThenClear env eff st c t m =
      ({ st with flags := setk st.flags c false },
       (if (setk st.flags c false).any (fun p => p.2) then
          eff.trace ++ [Ev.edited t m]
        else eff.trace ++ [Ev.edited t m] ++ [Ev.presence false]),
       HRes.ret) := by
  simp only [editThenClear, doEdit, hops, if_true]
  rw [finishClear_ok _ _ _ _ hops]

theorem sendParts_ok (env : Env) (ps : List Str) (eff : Eff)
    (hops : ∀ n, env.opOk n = true) : (sendParts env ps eff).2 = none := by
  induction ps generalizing eff with
  | nil => rfl
  | cons p ps ih =>
    simp only [sendParts, doSend, hops, if_true]
    exact ih _

theorem streamLoop_none (env : Env) (t : Nat) (toks : List Str) (ls : LoopSt)
    (hops : ∀ n, env.opOk n = true) : (streamLoop env t toks ls).2 = none := by
  induction toks generalizing ls with
  | nil => rfl
  | cons tok toks ih =>
    simp only [streamLoop, doEdit, hops, if_true]
    split
    · exact ih _
    · exact ih _

theorem lookupL_memEnsure_self (m : List (MKey × List Turn)) (k : MKey) :
    (lookupL (memEnsure m k) k).isSome = true := by
  unfold memEnsure
  split
  · rename_i v h
    rw [h]
    rfl
  · rename_i h
    rw [lookupL_append, h, lookupL_cons, if_pos rfl]
    rfl

theorem key_mem_clearKeys (st : GState) (uid : Nat) (ch : Str)
    (h : (lookupL st.mem (uid, ch)).isSome = true) : (uid, ch) ∈ clearKeys st uid := by
  rw [Option.isSome_iff_exists] at h
  obtain ⟨v, hv⟩ := h
  unfold lookupL at hv
  cases hf : st.mem.find? (fun p => decide (p.1 = (uid, ch))) with
  | none => rw [hf] at hv; simp at hv
  | some p0 =>
    have hp0 := List.mem_of_find?_eq_some hf
    have hkey' := @List.find?_some _ (fun p => decide (p.1 = (uid, ch))) p0 st.mem hf
    have hkey : p0.1 = (uid, ch) := by simpa using hkey'
    unfold clearKeys
    exact List.mem_map.2 ⟨p0, List.mem_filter.2 ⟨hp0, by simp [hkey]⟩, hkey⟩

/-- Under an environment whose transport calls and user fetch all succeed,
with the persona configured and its flag clear, `handle` reaches the
streaming phase deterministically: presence online, placeholder sent as
message 0, the key's memory entry lazily created, and then the branch on the
stream outcome. -/
theorem handle_unfold_stream (env : Env) (st : GState) (uid : Nat)
    (ch msg cp : Str) (hops : ∀ n, env.opOk n = true) (hu : env.userOk = true)
    (hch : env.charPrompt = some cp) (hflag : flagOf st ch = false) :
    handle env st uid ch msg =
      (let stT : GState :=
         { mem := (cleanupState env.now st).mem,
           act := setk (cleanupState env.now st).act (uid, ch) env.now,
           flags := (cleanupState env.now st).flags }
       let stE := ensureKey { stT with flags := setk stT.flags ch true } (uid, ch)
       let eff2 : Eff :=
         { opIdx := 2, msgCount := 1,
           trace := [Ev.presence true, Ev.sent 0 STARTING_MESSAGE] }
       let sr := runStream env.status env.chunks
       let ls0 : LoopSt := { eff := eff2, reply := [], lastEdit := env.mono 0, clk := 1 }
       match streamLoop env 0 sr.1 ls0 with
       | (ls, some e) => editThenClear env ls.eff stE ch 0 (errMsg e)
       | (ls, none) =>
         match sr.2 with
         | some e => editThenClear env ls.eff stE ch 0 (errMsg e)
         | none =>
           if ls.reply.filter (fun c => !(isWsChar c)) = [] then
             editThenClear env ls.eff stE ch 0 noOutputMsg
           else
             let stC := commitPair stE (uid, ch) msg ls.reply
             let parts := split_message ls.reply
             match doEdit env ls.eff 0 (parts.headD []) with
             | (eff3, Except.error e) => (stC, eff3.trace, HRes.raised e)
             | (eff3, Except.ok _) =>
               match sendParts env parts.tail eff3 with
               | (eff4, some e) => (stC, eff4.trace, HRes.raised e)
               | (eff4, none) => finishClear env eff4 stC ch) := by
  have hbusy : flagOf
      { mem := (cleanupState env.now st).mem,
        act := setk (cleanupState env.now st).act (uid, ch) env.now,
        flags := (cleanupState env.now st).flags } ch = false := hflag
  have e1 := doPresence_ok env { opIdx := 0, msgCount := 0, trace := [] } true (hops 0)
  have e2 := doSend_ok env { opIdx := 1, msgCount := 0, trace := [Ev.presence true] }
    STARTING_MESSAGE (hops 1)
  simp only [handle, hch, hbusy, Bool.false_eq_true, if_false, e1, e2, hu,
    Bool.true_eq_false, List.nil_append, Nat.zero_add, Nat.add_zero]
  rfl

theorem lookupL_memCommit_self (m : List (MKey × List Turn)) (k : MKey) (u a : Str) :
    (lookupL (memCommit m k u a) k).isSome = true := by
  unfold memCommit
  rw [lookupL_setk, if_pos rfl]
  rfl

/-- C10 counterexample: an invocation that passes the busy check but whose
placeholder send fails creates no memory entry — it raises at line 179,
before the `conversation_memory[key]` access of line 183. -/
theorem c10_counterexample :
    flagOf emptyG charW = false ∧
    envPlaceholderFails.charPrompt.isSome = true ∧
    (handle envPlaceholderFails emptyG 7 charW (['h'])).1.mem = [] ∧
    (handle envPlaceholderFails emptyG 7 charW (['h'])).2.2 = HRes.raised (['E']) := by
  refine ⟨by decide, by decide, by decide, by decide⟩

/-- C10 amended: every invocation that passes the busy check and whose
presence change, placeholder send and user fetch succeed creates an entry
(possibly an empty turn sequence) for its key — even when the generation
fails, is empty, or a later send fails — and a subsequent clear-memory for
that identity counts that persona among the entries it clears. -/
theorem c10_amended (env : Env) (st : GState) (uid : Nat) (ch msg cp : Str)
    (hops : ∀ n, env.opOk n = true) (hu : env.userOk = true)
    (hch : env.charPrompt = some cp) (hflag : flagOf st ch = false) :
    keyMemB (handle env st uid ch msg).1 (uid, ch) = true ∧
    (uid, ch) ∈ clearKeys (handle env st uid ch msg).1 uid ∧
    1 ≤ (clearMemory (handle env st uid ch msg).1 uid).2 := by
  have hk : (lookupL (handle env st uid ch msg).1.mem (uid, ch)).isSome = true := by
    rw [handle_unfold_stream env st uid ch msg cp hops hu hch hflag]
    simp only []
    split
    · rw [editThenClear_mem, ensureKey_mem]
      exact lookupL_memEnsure_self _ _
    · split
      · rw [editThenClear_mem, ensureKey_mem]
        exact lookupL_memEnsure_self _ _
      · split
        · rw [editThenClear_mem, ensureKey_mem]
          exact lookupL_memEnsure_self _ _
        · split
          · rw [commitPair_mem, ensureKey_mem]
            exact lookupL_memCommit_self _ _ _ _
          · split
            · rw [commitPair_mem, ensureKey_mem]
              exact lookupL_memCommit_self _ _ _ _
            · rw [finishClear_mem, commitPair_mem, ensureKey_mem]
              exact lookupL_memCommit_self _ _ _ _
  refine ⟨hk, key_mem_clearKeys _ uid ch hk, ?_⟩
  show 1 ≤ (clearKeys (handle env st uid ch msg).1 uid).length
  exact List.length_pos.2 (List.ne_nil_of_mem (key_mem_clearKeys _ uid ch hk))

theorem c10_amended_witness :
    ((∀ n, envHttp500.opOk n = true) ∧ envHttp500.userOk = true ∧
      envHttp500.charPrompt = some (['p']) ∧ flagOf emptyG charW = false) ∧
    keyMemB (handle envHttp500 emptyG 7 charW (['h'])).1 (7, charW) = true ∧
    (7, charW) ∈ clearKeys (handle envHttp500 emptyG 7 charW (['h'])).1 7 ∧
    1 ≤ (clearMemory (handle envHttp500 emptyG 7 charW (['h'])).1 7).2 :=
  ⟨⟨fun n => rfl, rfl, rfl, rfl⟩,
   c10_amended envHttp500 emptyG 7 charW (['h']) (['p'])
     (fun n => rfl) rfl rfl rfl⟩

theorem flagOf_after_clear (st : GState) (c : Str) :
    flagOf { st with flags := setk st.flags c false } c = false := by
  simp [flagOf, lookupL_setk]

/-- C1 counterexample: on the success path, if the transport call that
revises the placeholder with the first output segment fails, the exception
propagates out of `handle` with the persona's GenerationFlag still true: the
flag is cleared only at line 228, after the final edit and all segment
sends, and no try/finally protects it. -/
theorem c1_counterexample :
    flagOf (handle envFinalEditFails emptyG 7 charW (['h'])).1 charW = true ∧
    (handle envFinalEditFails emptyG 7 charW (['h'])).2.2 = HRes.raised (['E']) := by
  exact ⟨by decide, by decide⟩

/-- C1 amended: the flag is false again on return on every code path —
including the decode-failure and empty-result paths — provided every
transport call performed after the flag is set (presence change, placeholder
send, placeholder revisions, segment sends) and the user fetch succeed; when
one of them fails, the exception propagates and the flag can remain true
(see the counterexample). -/
theorem c1_amended (env : Env) (st : GState) (uid : Nat) (ch msg : Str)
    (hops : ∀ n, env.opOk n = true) (hu : env.userOk = true)
    (hflag : flagOf st ch = false) :
    flagOf (handle env st uid ch msg).1 ch = false ∧
    (handle env st uid ch msg).2.2 = HRes.ret := by
  cases hch : env.charPrompt with
  | none =>
    have e0 := doSend_ok env { opIdx := 0, msgCount := 0, trace := [] }
      (notFoundMsg ch) (hops 0)
    simp only [handle, hch, e0]
    exact ⟨hflag, trivial⟩
  | some cp =>
    rw [handle_unfold_stream env st uid ch msg cp hops hu hch hflag]
    simp only []
    split
    · rw [editThenClear_ok _ _ _ _ _ _ hops]
      exact ⟨flagOf_after_clear _ ch, rfl⟩
    · split
      · rw [editThenClear_ok _ _ _ _ _ _ hops]
        exact ⟨flagOf_after_clear _ ch, rfl⟩
      · split
        · rw [editThenClear_ok _ _ _ _ _ _ hops]
          exact ⟨flagOf_after_clear _ ch, rfl⟩
        · split
          · rename_i heq
            rw [doEdit_ok _ _ _ _ (hops _)] at heq
            simp at heq
          · rename_i heq
            split
            · rename_i heq2
              have hsp := congrArg Prod.snd heq2
              rw [sendParts_ok env _ _ hops] at hsp
              simp at hsp
            · rw [finishClear_ok _ _ _ _ hops]
              exact ⟨flagOf_after_clear _ ch, rfl⟩

theorem c1_amended_witness :
    ((∀ n, envOkW.opOk n = true) ∧ envOkW.userOk = true ∧
      flagOf emptyG charW = false) ∧
    flagOf (handle envOkW emptyG 7 charW (['h'])).1 charW = false ∧
    (handle envOkW emptyG 7 charW (['h'])).2.2 = HRes.ret :=
  ⟨⟨fun n => rfl, rfl, rfl⟩,
   c1_amended envOkW emptyG 7 charW (['h']) (fun n => rfl) rfl rfl⟩

theorem ensureKey_flags (st : GState) (k : MKey) : (ensureKey st k).flags = st.flags := by
  unfold ensureKey
  split <;> rfl

theorem cleanupState_mem_lookup (now : Int) (st : GState) (k : MKey)
    (hexp : keyExpired now st.act k = false) :
    lookupL (cleanupState now st).mem k = lookupL st.mem k := by
  unfold cleanupState
  simp only []
  exact lookupL_filter_key st.mem (fun k' => !(keyExpired now st.act k')) k
    (by simp [hexp])

theorem lookupL_memEnsure_getD (m : List (MKey × List Turn)) (k : MKey) :
    (lookupL (memEnsure m k) k).getD [] = (lookupL m k).getD [] := by
  unfold memEnsure
  split
  · rfl
  · rename_i h
    rw [lookupL_append, h, lookupL_cons, if_pos rfl]
    rfl

theorem key_in_setk {α β : Type} [DecidableEq α] (m : List (α × β)) (k : α) (v : β) :
    ((setk m k v).any fun p => decide (p.1 = k)) = true := by
  unfold setk
  split
  · rename_i h
    induction m with
    | nil => simp at h
    | cons p m ih =>
      simp only [List.map_cons, List.any_cons]
      by_cases hp : p.1 = k
      · rw [if_pos hp]
        simp
      · rw [if_neg hp]
        simp only [List.any_cons] at h
        rcases Bool.or_eq_true_iff.1 h with h1 | h2
        · exact absurd (of_decide_eq_true h1) hp
        · rw [ih h2]
          simp
  · simp [List.any_append]

theorem setk_false_any (m : List (Str × Bool)) (c : Str)
    (hin : (m.any fun p => decide (p.1 = c)) = true) :
    ((setk m c false).any fun p => p.2) =
      ((m.filter fun p => !(decide (p.1 = c))).any fun p => p.2) := by
  unfold setk
  rw [if_pos hin]
  clear hin
  induction m with
  | nil => rfl
  | cons p m ih =>
    simp only [List.map_cons, List.filter_cons, List.any_cons]
    by_cases hp : p.1 = c
    · rw [if_pos hp]
      simp [hp, ih]
    · rw [if_neg hp]
      simp [hp, ih]

theorem filter_ne_map_replace {α β : Type} [DecidableEq α]
    (m : List (α × β)) (k : α) (v : β) :
    ((m.map fun p => if p.1 = k then (k, v) else p).filter
        fun p => !(decide (p.1 = k))) =
      (m.filter fun p => !(decide (p.1 = k))) := by
  induction m with
  | nil => rfl
  | cons p m ih =>
    simp only [List.map_cons, List.filter_cons]
    by_cases hp : p.1 = k
    · rw [if_pos hp]
      simp [hp, ih]
    · rw [if_neg hp]
      simp [hp, ih]

theorem setk_setk_any (f : List (Str × Bool)) (c : Str) :
    ((setk (setk f c true) c false).any fun p => p.2) =
      ((f.filter fun p => !(decide (p.1 = c))).any fun p => p.2) := by
  rw [setk_false_any _ _ (key_in_setk f c true)]
  unfold setk
  split
  · rw [filter_ne_map_replace]
  · rw [List.filter_append]
    simp

theorem streamLoop_trace_sub (env : Env) (t : Nat) (toks : List Str) (ls : LoopSt) :
    ∀ ev ∈ (streamLoop env t toks ls).1.eff.trace,
      ev ∈ ls.eff.trace ∨ ∃ c, ev = Ev.edited t c := by
  induction toks generalizing ls with
  | nil => intro ev hev; exact Or.inl hev
  | cons tok toks ih =>
    intro ev hev
    simp only [streamLoop] at hev
    split at hev
    · split at hev
      · rename_i eff2 u heq
        have htr : eff2.trace = ls.eff.trace ++
            [Ev.edited t (takeLastN DISCORD_MESSAGE_LIMIT (ls.reply ++ tok))] := by
          unfold doEdit at heq
          split at heq
          · simp only [Prod.mk.injEq] at heq
            rw [← heq.1]
          · simp at heq
        rcases ih _ ev hev with h1 | h2
        · simp only [] at h1
          rw [htr] at h1
          simp only [List.mem_append] at h1
          rcases h1 with h3 | h4
          · exact Or.inl h3
          · exact Or.inr ⟨_, List.mem_singleton.1 h4⟩
        · exact Or.inr h2
      · rename_i eff2 e heq
        simp only [] at hev
        have htr : eff2.trace = ls.eff.trace := by
          unfold doEdit at heq
          split at heq
          · simp at heq
          · simp only [Prod.mk.injEq] at heq
            rw [← heq.1]
        rw [htr] at hev
        exact Or.inl hev
    · exact ih { ls with reply := ls.reply ++ tok, clk := ls.clk + 1 } ev hev

/-- C4 counterexample: if the key's last activity is older than
EXPIRY_SECONDS, the entry sweep at the top of the same invocation removes its
turns before the decode failure is even reached, so the memory for the key is
NOT unchanged from before the call (it went from one committed pair to an
empty, freshly re-created history). -/
theorem c4_counterexample :
    (runStream envHttp500Late.status envHttp500Late.chunks).2.isSome = true ∧
    getTurns (handle envHttp500Late stOnePair 7 charW (['h'])).1 keyW ≠
      getTurns stOnePair keyW := by
  exact ⟨by decide, by decide⟩

/-- C4 amended: on a decode failure (including backend unavailability),
provided every transport call and the user fetch succeed and the key was not
removed by the entry expiry sweep, the placeholder is revised to an error
description embedding the failure detail, the flag is cleared, presence is
set idle iff no other persona's flag remains true, and the key's turn
sequence is unchanged — no partial pair is committed.  (When the error
revision itself fails the flag can leak, and when the key was expired its
turns are gone: see the counterexamples for C1 and C4.) -/
theorem c4_amended (env : Env) (st : GState) (uid : Nat) (ch msg cp e : Str)
    (hops : ∀ n, env.opOk n = true) (hu : env.userOk = true)
    (hch : env.charPrompt = some cp) (hflag : flagOf st ch = false)
    (herr : (runStream env.status env.chunks).2 = some e)
    (hexp : keyExpired env.now st.act (uid, ch) = false) :
    flagOf (handle env st uid ch msg).1 ch = false ∧
    getTurns (handle env st uid ch msg).1 (uid, ch) = getTurns st (uid, ch) ∧
    Ev.edited 0 (errMsg e) ∈ (handle env st uid ch msg).2.1 ∧
    (Ev.presence false ∈ (handle env st uid ch msg).2.1 ↔
      ((st.flags.filter fun p => !(decide (p.1 = ch))).any fun p => p.2) = false) := by
  rw [handle_unfold_stream env st uid ch msg cp hops hu hch hflag]
  simp only []
  split
  · rename_i heq
    have h2 := congrArg Prod.snd heq
    rw [streamLoop_none _ _ _ _ hops] at h2
    simp at h2
  · rename_i ls heq
    split
    · rename_i e2 heq2
      rw [herr] at heq2
      injection heq2 with he
      subst he
      rw [editThenClear_ok _ _ _ _ _ _ hops]
      have hf2 : (ensureKey
          { mem := (cleanupState env.now st).mem,
            act := setk (cleanupState env.now st).act (uid, ch) env.now,
            flags := setk (cleanupState env.now st).flags ch true } (uid, ch)).flags =
          setk st.flags ch true := by
        rw [ensureKey_flags]
        rfl
      have hnp : Ev.presence false ∉ ls.eff.trace := by
        intro hmem
        have hsub := streamLoop_trace_sub env 0 (runStream env.status env.chunks).1
          { eff :=
              { opIdx := 2, msgCount := 1,
                trace := [Ev.presence true, Ev.sent 0 STARTING_MESSAGE] },
            reply := [], lastEdit := env.mono 0, clk := 1 }
        rw [heq] at hsub
        rcases hsub (Ev.presence false) hmem with h1 | ⟨c, hc⟩
        · simp at h1
        · simp at hc
      refine ⟨?_, ?_, ?_, ?_⟩
      · exact flagOf_after_clear _ ch
      · simp only [getTurns]
        rw [ensureKey_mem, lookupL_memEnsure_getD]
        rw [cleanupState_mem_lookup env.now st (uid, ch) hexp]
      · rw [hf2]
        split
        · simp
        · simp
      · rw [hf2, show ((setk (setk st.flags ch true) ch false).any fun p => p.2) =
            ((st.flags.filter fun p => !(decide (p.1 = ch))).any fun p => p.2)
            from setk_setk_any st.flags ch]
        by_cases hbv : ((st.flags.filter fun p => !(decide (p.1 = ch))).any
            fun p => p.2) = true
        · rw [if_pos hbv]
          refine iff_of_false ?_ (by simp [hbv])
          intro hmem
          rcases List.mem_append.1 hmem with h1 | h2
          · exact hnp h1
          · simp at h2
        · have hbv' := Bool.eq_false_iff.2 hbv
          rw [if_neg hbv]
          refine iff_of_true ?_ hbv'
          simp
    · rename_i heq2
      rw [heq2] at herr
      cases herr

theorem c4_amended_witness :
    ((runStream envHttp500.status envHttp500.chunks).2 = some (httpErrMsg 500) ∧
      flagOf stOnePair charW = false ∧
      keyExpired envHttp500.now stOnePair.act keyW = false) ∧
    flagOf (handle envHttp500 stOnePair 7 charW (['h'])).1 charW = false ∧
    getTurns (handle envHttp500 stOnePair 7 charW (['h'])).1 keyW =
      getTurns stOnePair keyW ∧
    Ev.edited 0 (errMsg (httpErrMsg 500)) ∈
      (handle envHttp500 stOnePair 7 charW (['h'])).2.1 ∧
    (Ev.presence false ∈ (handle envHttp500 stOnePair 7 charW (['h'])).2.1 ↔
      ((stOnePair.flags.filter fun p => !(decide (p.1 = charW))).any
        fun p => p.2) = false) :=
  ⟨⟨by decide, by decide, by decide⟩,
   c4_amended envHttp500 stOnePair 7 charW (['h']) (['p']) (httpErrMsg 500)
     (fun n => rfl) rfl rfl (by decide) (by decide) (by decide)⟩

theorem bor_imp (a : Bool) (P : Prop) [Decidable P] :
    ((!a || decide P) = true) ↔ (a = true → P) := by
  cases a <;> simp

theorem cInv_eq (s : CState) :
    cInv s = true ↔
      ((holdsLock s.p0 = true → s.lock = some 0) ∧
       (holdsLock s.p1 = true → s.lock = some 1) ∧
       s.flag = (isGen s.p0 || isGen s.p1) ∧
       notBusyPhase s.p0 = true ∧ notBusyPhase s.p1 = true ∧ s.busySends = 0) := by
  unfold cInv lockInv
  simp only [Bool.and_eq_true, bor_imp, decide_eq_true_eq, beq_iff_eq]
  tauto

theorem isGen_holds {p : TPhase} (h : isGen p = true) : holdsLock p = true := by
  cases p <;> simp_all [isGen, holdsLock]

theorem isGen_false_of_holds {p : TPhase} (h : holdsLock p = false) :
    isGen p = false := by
  cases p <;> simp_all [isGen, holdsLock]

theorem cInv_init (t0 t1 : List Str) : cInv (initC t0 t1) = true := rfl
theorem cInv_step0 (s : CState) (h : cInv s = true) : cInv (stepT 0 s) = true := by
  rw [cInv_eq] at h
  obtain ⟨hL0, hL1, hF, hB0, hB1, hS⟩ := h
  unfold stepT
  have hph : phaseOf s 0 = s.p0 := rfl
  rw [hph]
  cases hp0 : s.p0 with
  | entry =>
    cases hlk : s.lock with
    | none =>
      have hg1 : holdsLock s.p1 = false := by
        cases hh : holdsLock s.p1
        · rfl
        · rw [hL1 hh] at hlk; cases hlk
      have hg1i := isGen_false_of_holds hg1
      rw [cInv_eq]
      refine ⟨?_, ?_, ?_, ?_, ?_, ?_⟩ <;>
        simp_all [setPhase, holdsLock, isGen, notBusyPhase, isGen_false_of_holds]
    | some lk =>
      rw [cInv_eq]
      exact ⟨hL0, hL1, hF, hB0, hB1, hS⟩
  | checking =>
    have hlk0 : s.lock = some 0 := hL0 (by rw [hp0]; rfl)
    have hg1 : holdsLock s.p1 = false := by
      cases hh : holdsLock s.p1
      · rfl
      · rw [hL1 hh] at hlk0; simp at hlk0
    have hg1i := isGen_false_of_holds hg1
    have hflag : s.flag = false := by
      rw [hF, hp0, isGen_false_of_holds hg1]
      rfl
    rw [hflag]
    simp only [Bool.false_eq_true, if_false]
    rw [cInv_eq]
    refine ⟨?_, ?_, ?_, ?_, ?_, ?_⟩ <;>
      simp_all [setPhase, holdsLock, isGen, notBusyPhase, isGen_false_of_holds]
  | busying =>
    rw [hp0] at hB0
    simp [notBusyPhase] at hB0
  | doneBusy =>
    rw [hp0] at hB0
    simp [notBusyPhase] at hB0
  | generating rest =>
    have hlk0 : s.lock = some 0 := hL0 (by rw [hp0]; rfl)
    have hg1 : holdsLock s.p1 = false := by
      cases hh : holdsLock s.p1
      · rfl
      · rw [hL1 hh] at hlk0; simp at hlk0
    have hg1i := isGen_false_of_holds hg1
    cases rest with
    | cons t rest2 =>
      rw [cInv_eq]
      refine ⟨?_, ?_, ?_, ?_, ?_, ?_⟩ <;>
        simp_all [setPhase, pushAcc, holdsLock, isGen, notBusyPhase,
          isGen_false_of_holds]
    | nil =>
      rw [cInv_eq]
      refine ⟨?_, ?_, ?_, ?_, ?_, ?_⟩ <;>
        simp_all [setPhase, holdsLock, isGen, notBusyPhase, isGen_false_of_holds]
  | doneOk =>
    rw [cInv_eq]
    exact ⟨hL0, hL1, hF, hB0, hB1, hS⟩

theorem cInv_step1 (s : CState) (h : cInv s = true) : cInv (stepT 1 s) = true := by
  rw [cInv_eq] at h
  obtain ⟨hL0, hL1, hF, hB0, hB1, hS⟩ := h
  unfold stepT
  have hph : phaseOf s 1 = s.p1 := rfl
  rw [hph]
  cases hp1 : s.p1 with
  | entry =>
    cases hlk : s.lock with
    | none =>
      have hg0 : holdsLock s.p0 = false := by
        cases hh : holdsLock s.p0
        · rfl
        · rw [hL0 hh] at hlk; cases hlk
      have hg0i := isGen_false_of_holds hg0
      rw [cInv_eq]
      refine ⟨?_, ?_, ?_, ?_, ?_, ?_⟩ <;>
        simp_all [setPhase, holdsLock, isGen, notBusyPhase, isGen_false_of_holds]
    | some lk =>
      rw [cInv_eq]
      exact ⟨hL0, hL1, hF, hB0, hB1, hS⟩
  | checking =>
    have hlk1 : s.lock = some 1 := hL1 (by rw [hp1]; rfl)
    have hg0 : holdsLock s.p0 = false := by
      cases hh : holdsLock s.p0
      · rfl
      · rw [hL0 hh] at hlk1; simp at hlk1
    have hg0i := isGen_false_of_holds hg0
    have hflag : s.flag = false := by
      rw [hF, hp1, isGen_false_of_holds hg0]
      rfl
    rw [hflag]
    simp only [Bool.false_eq_true, if_false]
    rw [cInv_eq]
    refine ⟨?_, ?_, ?_, ?_, ?_, ?_⟩ <;>
      simp_all [setPhase, holdsLock, isGen, notBusyPhase, isGen_false_of_holds]
  | busying =>
    rw [hp1] at hB1
    simp [notBusyPhase] at hB1
  | doneBusy =>
    rw [hp1] at hB1
    simp [notBusyPhase] at hB1
  | generating rest =>
    have hlk1 : s.lock = some 1 := hL1 (by rw [hp1]; rfl)
    have hg0 : holdsLock s.p0 = false := by
      cases hh : holdsLock s.p0
      · rfl
      · rw [hL0 hh] at hlk1; simp at hlk1
    have hg0i := isGen_false_of_holds hg0
    cases rest with
    | cons t rest2 =>
      rw [cInv_eq]
      refine ⟨?_, ?_, ?_, ?_, ?_, ?_⟩ <;>
        simp_all [setPhase, pushAcc, holdsLock, isGen, notBusyPhase,
          isGen_false_of_holds]
    | nil =>
      rw [cInv_eq]
      refine ⟨?_, ?_, ?_, ?_, ?_, ?_⟩ <;>
        simp_all [setPhase, holdsLock, isGen, notBusyPhase, isGen_false_of_holds]
  | doneOk =>
    rw [cInv_eq]
    exact ⟨hL0, hL1, hF, hB0, hB1, hS⟩

theorem cInv_step (i : Fin 2) (s : CState) (h : cInv s = true) :
    cInv (stepT i s) = true := by
  fin_cases i
  · exact cInv_step0 s h
  · exact cInv_step1 s h

theorem cInv_run (sched : List (Fin 2)) (s : CState) (h : cInv s = true) :
    cInv (runSched s sched) = true := by
  induction sched generalizing s with
  | nil => exact h
  | cons i is ih => exact ih _ (cInv_step i s h)

theorem mutexB_of_cInv (s : CState) (h : cInv s = true) : mutexB s = true := by
  rw [cInv_eq] at h
  obtain ⟨hL0, hL1, _, _, _, _⟩ := h
  unfold mutexB
  cases hg0 : isGen s.p0
  · rfl
  · cases hg1 : isGen s.p1
    · simp
    · have h0 := hL0 (isGen_holds hg0)
      have h1 := hL1 (isGen_holds hg1)
      rw [h0] at h1
      simp at h1

/-- C2 counterexample: a concrete interleaving in which the second invocation
arrives while the first is in its Generating state (its step at position 2
finds the lock held and blocks), yet it never receives the busy notice:
after the first finishes it acquires the lock, runs its own full generation
and commits its own memory turn (two commits in total). -/
theorem c2_counterexample :
    isGen (runSched initW [0, 0]).p0 = true ∧
    (runSched initW [0, 0, 1]).p1 = TPhase.entry ∧
    (runSched initW schedW).p1 = TPhase.doneOk ∧
    (runSched initW schedW).busySends = 0 ∧
    (runSched initW schedW).commits = 2 := by
  refine ⟨by decide, by decide, by decide, by decide, by decide⟩

/-- C2 amended: for every interleaving, at most one invocation per persona is
in its Generating state at any instant (the persona lock, held for the whole
generation, enforces mutual exclusion), and no step of either invocation ever
alters the other's accumulator.  However a second concurrent call does not
return the busy notice: it blocks on the persona lock and performs its own
full generation after the first completes (see the counterexample). -/
theorem c2_amended :
    (∀ (t0 t1 : List Str) (sched : List (Fin 2)),
        mutexB (runSched (initC t0 t1) sched) = true) ∧
    (∀ s : CState, (stepT 1 s).acc0 = s.acc0 ∧ (stepT 0 s).acc1 = s.acc1) := by
  constructor
  · intro t0 t1 sched
    exact mutexB_of_cInv _ (cInv_run sched _ (cInv_init t0 t1))
  · intro s
    constructor
    · unfold stepT
      repeat' split
      all_goals simp [setPhase, pushAcc]
    · unfold stepT
      repeat' split
      all_goals simp [setPhase, pushAcc]

/-- C3 counterexample: the same interleaving shows deferred execution: the
second request, having arrived while the first generation was in flight,
receives no busy notice at all and is executed later — it completes its own
generation (accumulating its token) after the first finishes. -/
theorem c3_counterexample :
    isGen (runSched initW [0, 0]).p0 = true ∧
    (runSched initW schedW).acc1 = ['y'] ∧
    (runSched initW schedW).p1 = TPhase.doneOk ∧
    (runSched initW schedW).busySends = 0 := by
  refine ⟨by decide, by decide, by decide, by decide⟩

/-- C3 amended: a second request for a busy persona is not rejected — it is
queued on the persona's `asyncio.Lock` and executed after the first
generation finishes.  Starting from a clean state (flag false), the busy
branch is unreachable under every interleaving: no busy notice is ever sent.
(The busy notice can only be produced when an earlier invocation leaked the
flag by raising after setting it — see C1.) -/
theorem c3_amended :
    ∀ (t0 t1 : List Str) (sched : List (Fin 2)),
      (runSched (initC t0 t1) sched).busySends = 0 ∧
      notBusyPhase (runSched (initC t0 t1) sched).p0 = true ∧
      notBusyPhase (runSched (initC t0 t1) sched).p1 = true := by
  intro t0 t1 sched
  have h := cInv_run sched _ (cInv_init t0 t1)
  rw [cInv_eq] at h
  exact ⟨h.2.2.2.2.2, h.2.2.2.1, h.2.2.2.2.1⟩
